import Mathlib

/-!
Verification of the natural-language specification of z3's `seq_rewriter`
(src/ast/rewriter/seq_rewriter.cpp) against the source, by a shallow
embedding of the relevant data model and operations in Lean.

Terms of the host AST are embedded as the inductive type `SeqRw.E`
(sequence, integer, Boolean and character sorts are untyped, as in the
source's `expr`), regular expressions as `SeqRw.Rgx`.  Hash-consed term
identity becomes structural equality (`DecidableEq`), which is faithful
because hash-consing makes structurally equal terms pointer-equal.
Each embedded function mirrors the branch cascade of the corresponding
source function; memoization caches (`m_op_cache`) are elided, since on
identical inputs they return the previously computed result of the same
pure computation.  Functions of the repository that live outside
seq_rewriter.cpp (seq_decl_plugin info fields, bool_rewriter folding,
`max_char`) are modelled from the spec and marked as such in their doc
comments.
-/

namespace SeqRw

/-- Modelled from the spec: `MAX_CHAR`, the largest character code
(`u().max_char()`, defined outside seq_rewriter.cpp; the spec gives
196607). -/
def max_char : Nat := 196607

/-- Embedded terms: the fragment of z3's `expr` that the claims touch.
Characters, integers, Booleans and sequences are not separated by sort,
mirroring the untyped `expr*` of the source.  `boolVar` stands for an
opaque Boolean condition, `select p a` for the array select used by
`of_pred` regexes. -/
inductive E where
  | charVal (c : Nat)
  | charVar (i : Nat)
  | intVal (k : Int)
  | intVar (i : Nat)
  | boolVar (i : Nat)
  | strLit (s : List Nat)
  | unit (a : E)
  | seqVar (i : Nat)
  | concat (a b : E)
  | seqAt (s i : E)
  | extract (s i l : E)
  | itos (a : E)
  | stoi (a : E)
  | nth_i (s i : E)
  | length (s : E)
  | ite (c t e : E)
  | eq (a b : E)
  | not (a : E)
  | and (a b : E)
  | or (a b : E)
  | charLe (a b : E)
  | ge (a b : E)
  | add (a b : E)
  | mul (a b : E)
  | sub (a b : E)
  | select (p : Nat) (a : E)
  | btrue
  | bfalse
  deriving DecidableEq, Repr

/-- Values of the four sorts. -/
inductive Val where
  | vC (c : Nat)
  | vI (k : Int)
  | vB (b : Bool)
  | vS (s : List Nat)
  deriving DecidableEq, Repr

/-- An assignment to the uninterpreted parts of a term. -/
structure Assign where
  charV : Nat → Nat
  intV : Nat → Int
  boolV : Nat → Bool
  seqV : Nat → List Nat
  predV : Nat → Nat → Bool

/-- Character read-back; the one-character-sequence case fixes the
(ill-sorted, never well-typed) value of `unit` applied to a sequence in
a way that keeps distinct value terms denoting distinct values. -/
def Val.asC : Val → Nat
  | .vC c => c
  | .vS [c] => c
  | _ => 0

def Val.asI : Val → Int
  | .vI k => k
  | _ => 0

def Val.asB : Val → Bool
  | .vB b => b
  | _ => false

def Val.asS : Val → List Nat
  | .vS s => s
  | _ => []

/-- Decimal digit characters of a natural number, most significant first
(character codes; 48 is the code of the digit 0). -/
def decimal_digits (n : Nat) : List Nat :=
  if h : n < 10 then [48 + n]
  else decimal_digits (n / 10) ++ [48 + n % 10]
  decreasing_by exact Nat.div_lt_self (by omega) (by omega)

def is_digit_code (c : Nat) : Bool := 48 ≤ c && c ≤ 57

def digits_to_nat (s : List Nat) : Nat :=
  s.foldl (fun a d => a * 10 + (d - 48)) 0

/-- `str.to_int` on a concrete word: the denoted number when the word is a
nonempty digit sequence, otherwise -1. -/
def stoi_val (s : List Nat) : Int :=
  if s ≠ [] ∧ s.all is_digit_code then (digits_to_nat s : Int) else -1

/-- `str.from_int` on a concrete integer: decimal digits when nonnegative,
the empty word otherwise. -/
def itos_val (k : Int) : List Nat :=
  if 0 ≤ k then decimal_digits k.toNat else []

/-- Evaluation of an embedded term under an assignment (the theory
semantics of strings/sequences over the finite alphabet, SMT-LIB style;
ill-sorted positions evaluate through the `Val.as*` defaults, which the
claims never exercise). -/
def eval (σ : Assign) : E → Val
  | .charVal c => .vC c
  | .charVar i => .vC (σ.charV i)
  | .intVal k => .vI k
  | .intVar i => .vI (σ.intV i)
  | .boolVar i => .vB (σ.boolV i)
  | .strLit s => .vS s
  | .unit a => .vS [(eval σ a).asC]
  | .seqVar i => .vS (σ.seqV i)
  | .concat a b => .vS ((eval σ a).asS ++ (eval σ b).asS)
  | .seqAt s i =>
      let w := (eval σ s).asS
      let k := (eval σ i).asI
      .vS (if 0 ≤ k ∧ k < (w.length : Int) then [w.getD k.toNat 0] else [])
  | .extract s i l =>
      let w := (eval σ s).asS
      let m := (eval σ i).asI
      let n := (eval σ l).asI
      .vS (if 0 ≤ m ∧ m < (w.length : Int) ∧ 0 < n
           then (w.drop m.toNat).take n.toNat else [])
  | .itos a => .vS (itos_val (eval σ a).asI)
  | .stoi a => .vI (stoi_val (eval σ a).asS)
  | .nth_i s i => .vC ((eval σ s).asS.getD (eval σ i).asI.toNat 0)
  | .length s => .vI ((eval σ s).asS.length : Int)
  | .ite c t e => if (eval σ c).asB then eval σ t else eval σ e
  | .eq a b => .vB (eval σ a = eval σ b)
  | .not a => .vB (!(eval σ a).asB)
  | .and a b => .vB ((eval σ a).asB && (eval σ b).asB)
  | .or a b => .vB ((eval σ a).asB || (eval σ b).asB)
  | .charLe a b => .vB ((eval σ a).asC ≤ (eval σ b).asC)
  | .ge a b => .vB ((eval σ b).asI ≤ (eval σ a).asI)
  | .add a b => .vI ((eval σ a).asI + (eval σ b).asI)
  | .mul a b => .vI ((eval σ a).asI * (eval σ b).asI)
  | .sub a b => .vI ((eval σ a).asI - (eval σ b).asI)
  | .select p a => .vB (σ.predV p (eval σ a).asC)
  | .btrue => .vB true
  | .bfalse => .vB false

/-- The sequence denoted by a (sequence-sorted) term. -/
def evalS (e : E) (σ : Assign) : List Nat := (eval σ e).asS

/-- The Boolean denoted by a (Boolean-sorted) term. -/
def evalB (e : E) (σ : Assign) : Bool := (eval σ e).asB

/- ------------------------------------------------------------------
Length analyzer (seq_rewriter::min_length, seq_rewriter::max_length).
------------------------------------------------------------------ -/

/-- `seq_rewriter::min_length` on one expression: the first component is
the source's `bounded` flag (minimal length equals maximal length), the
second the minimal length.  The source's worklist-with-cache computes
exactly this structural recursion. -/
def min_length : E → Bool × Nat
  | .unit _ => (true, 1)
  | .strLit s => (true, s.length)
  | .concat a b =>
      let r1 := min_length a
      let r2 := min_length b
      (r1.1 && r2.1, r1.2 + r2.2)
  | .ite _ t e =>
      let r1 := min_length t
      let r2 := min_length e
      (r1.1 && r2.1 && (r1.2 = r2.2 : Bool), Nat.min r1.2 r2.2)
  | _ => (false, 0)

/-- `seq_rewriter::min_length` on a flattened concatenation (the
`expr_ref_vector` overload): conjunction of flags, sum of minima. -/
def min_length_list (es : List E) : Bool × Nat :=
  es.foldr (fun e r => let m := min_length e; (m.1 && r.1, m.2 + r.2)) (true, 0)

/-- `seq_rewriter::max_length`: an upper bound on the length together with
a boundedness flag; `unit` and `at` count 1, a string literal its length,
`extract` with a nonnegative constant length that constant, `concat`
sums, everything else is unbounded. -/
def max_length : E → Bool × Nat
  | .unit _ => (true, 1)
  | .seqAt _ _ => (true, 1)
  | .strLit s => (true, s.length)
  | .extract _ _ (.intVal n) => if n < 0 then (false, 0) else (true, n.toNat)
  | .concat a b =>
      let r1 := max_length a
      let r2 := max_length b
      (r1.1 && r2.1, r1.2 + r2.2)
  | _ => (false, 0)

/- ------------------------------------------------------------------
itos/stoi rewriting (seq_rewriter::mk_str_itos, seq_rewriter::mk_str_stoi)
and the character conversions (mk_str_from_code, mk_str_to_code) and
lexicographic comparison (mk_str_lt).  A result of `none` is the source's
BR_FAILED status (no rule fired); `some t` is a successful rewrite to `t`.
------------------------------------------------------------------ -/

/-- Flatten a term along `concat` (seq_util's `get_concat`). -/
def get_concat : E → List E
  | .concat a b => get_concat a ++ get_concat b
  | .strLit [] => []
  | e => [e]

/-- seq_util's `get_concat_units`: flatten along `concat` and explode
string literals into characters units. -/
def get_concat_units (a : E) : List E :=
  (get_concat a).flatMap fun e =>
    match e with
    | .strLit s => s.map fun c => .unit (.charVal c)
    | e => [e]

/-- `str().mk_concat` of a vector: right-associated concatenation, the
empty string for an empty vector. -/
def mk_concat_list : List E → E
  | [] => .strLit []
  | [x] => x
  | x :: xs => .concat x (mk_concat_list xs)

/-- `m().mk_or` of a vector of Booleans (right-associated). -/
def mk_or_list : List E → E
  | [] => .bfalse
  | [x] => x
  | x :: xs => .or x (mk_or_list xs)

/-- `seq_rewriter::mk_str_itos`: fold integer numerals, and rewrite
`itos(stoi(s))` with `|s| ≤ 1` to a guarded match against the digits. -/
def mk_str_itos (a : E) : Option E :=
  match a with
  | .intVal r => some (.strLit (if 0 ≤ r then decimal_digits r.toNat else []))
  | .stoi b =>
      if (max_length b).1 && (max_length b).2 ≤ 1 then
        let eqs := (List.range 10).map fun i => E.eq b (.strLit [48 + i])
        some (.ite (mk_or_list eqs) b (.strLit []))
      else none
  | _ => none

/-- `seq_rewriter::mk_str_stoi`: the cascade of rules for `str.to_int`
(string-literal folding, `stoi(itos(x)) → ite(x ≥ 0, x, -1)`, ite
distribution, digit units, and the trailing/leading-digit recursions).
The bit-vector branch (`is_ubv2s`) concerns an operator outside the
embedded fragment and cannot fire here. -/
def mk_str_stoi (a : E) : Option E :=
  match a with
  | .strLit s =>
      if s.length = 0 then some (.intVal (-1))
      else if s.all is_digit_code then some (.intVal (digits_to_nat s))
      else some (.intVal (-1))
  | .itos b => some (.ite (.ge b (.intVal 0)) b (.intVal (-1)))
  | .ite c t e => some (.ite c (.stoi t) (.stoi e))
  | .unit (.charVal ch) =>
      some (if is_digit_code ch then .intVal ((ch : Int) - 48) else .intVal (-1))
  | a =>
      let as := get_concat_units a
      match as.getLast? with
      | none => some (.intVal (-1))
      | some lst =>
      if (match lst with | .unit _ => true | _ => false) then
        let tail := E.stoi lst
        let head := mk_concat_list as.dropLast
        let stoi_head := E.stoi head
        let r1 := E.ite (.ge stoi_head (.intVal 0))
          (.add (.mul (.intVal 10) stoi_head) tail) (.intVal (-1))
        let r2 := E.ite (.ge tail (.intVal 0)) r1 tail
        some (.ite (.eq head (.strLit [])) tail r2)
      else
        match as.head? with
        | some (.unit (.charVal 48)) =>
            let rest := mk_concat_list as.tail
            some (.ite (.eq rest (.strLit [])) (.intVal 0) (.stoi rest))
        | _ => none

/-- `seq_rewriter::mk_str_from_code`: numeral out of `[0, MAX_CHAR]`
rewrites to the empty string, otherwise to the one-character string. -/
def mk_str_from_code (a : E) : Option E :=
  match a with
  | .intVal r =>
      some (if r < 0 ∨ (max_char : Int) < r then .strLit []
            else .strLit [r.toNat])
  | _ => none

/-- `seq_rewriter::mk_str_to_code`: on a string literal, the code of the
single character when the length is 1, otherwise -1; other arguments are
left unrewritten. -/
def mk_str_to_code (a : E) : Option E :=
  match a with
  | .strLit s =>
      some (if s.length = 1 then .intVal (s.headD 0) else .intVal (-1))
  | _ => none

/-- `str().is_string`: literal-string tester. -/
def is_string_lit : E → Bool
  | .strLit _ => true
  | _ => false

/-- The constant lexicographic strict order on words used by `mk_str_lt`:
first differing character decides, otherwise the shorter word is
smaller. -/
def str_lt_val : List Nat → List Nat → Bool
  | a :: as, b :: bs =>
      if a < b then true else if b < a then false else str_lt_val as bs
  | as, bs => as.length < bs.length

/-- `seq_rewriter::mk_str_lt`: `a < "" → false`; `"" < b → ¬("" = b)`;
two string literals fold to the lexicographic comparison; otherwise no
rule fires. -/
def mk_str_lt (a b : E) : Option E :=
  if b = .strLit [] then some .bfalse
  else if a = .strLit [] then some (.not (.eq a b))
  else match a, b with
    | .strLit as, .strLit bs => some (if str_lt_val as bs then .btrue else .bfalse)
    | _, _ => none

/- ------------------------------------------------------------------
Operation cache (seq_rewriter::op_cache).
------------------------------------------------------------------ -/

/-- A cache key `(op, a, b, c)`; any of the three term arguments may be
null.  Entry equality ignoring the stored result is modelled from the
spec (the `op_entry` hash/equality live in the header, outside src). -/
abbrev OpKey := Nat × Option E × Option E × Option E

/-- The operation cache: the hash table as an association list keyed on
`OpKey`, and the GC-anchoring trail. -/
structure OpCache where
  table : List (OpKey × E)
  trail : List E

/-- `op_cache::find`. -/
def op_cache_find (op : Nat) (a b c : Option E) (st : OpCache) : Option E :=
  (st.table.find? fun kv => kv.1 = (op, a, b, c)).map Prod.snd

/-- `op_cache::cleanup`: when the table has at least `cap = MAX_CACHE`
entries, both the table and the trail are fully cleared. -/
def op_cache_cleanup (cap : Nat) (st : OpCache) : OpCache :=
  if cap ≤ st.table.length then ⟨[], []⟩ else st

/-- `op_cache::insert`: cleanup, push the non-null key components and the
result on the trail, insert (replacing any entry with the same key). -/
def op_cache_insert (cap : Nat) (op : Nat) (a b c : Option E) (r : E)
    (st : OpCache) : OpCache :=
  let st1 := op_cache_cleanup cap st
  { table := ((op, a, b, c), r) :: st1.table.filter fun kv => kv.1 ≠ (op, a, b, c)
    trail := st1.trail ++ a.toList ++ b.toList ++ c.toList ++ [r] }

/- ------------------------------------------------------------------
Regular expressions.
------------------------------------------------------------------ -/

/-- Embedded regex terms.  `toRe` takes a sequence term; the epsilon
regex is `toRe` of the empty string, as in the source.  `reIte` is an
if-then-else at regex sort (built by the derivative engine), and
`antimirovUnion` the internal Antimirov-union tag. -/
inductive Rgx where
  | toRe (s : E)
  | emp
  | full
  | fullChar
  | range (l h : E)
  | union (a b : Rgx)
  | inter (a b : Rgx)
  | conc (a b : Rgx)
  | star (a : Rgx)
  | plus (a : Rgx)
  | opt (a : Rgx)
  | compl (a : Rgx)
  | loop1 (a : Rgx) (lo : Nat)
  | loop2 (a : Rgx) (lo hi : Nat)
  | rev (a : Rgx)
  | derivative (e : E) (a : Rgx)
  | reIte (c : E) (a b : Rgx)
  | antimirovUnion (a b : Rgx)
  | diff (a b : Rgx)
  | ofPred (p : Nat)
  | reVar (i : Nat)
  deriving DecidableEq, Repr

/-- The epsilon regex `to_re("")`. -/
def epsilon : Rgx := .toRe (.strLit [])

/-- `re().is_epsilon`. -/
def is_epsilon (r : Rgx) : Bool := r = epsilon

/-- The regex `Σ+` as the source builds it: `plus(full_char)`. -/
def dot_plus : Rgx := .plus .fullChar

/-- `re().is_dot_plus`. -/
def is_dot_plus (r : Rgx) : Bool := r = dot_plus

/-- `seq_rewriter::are_complements`. -/
def are_complements (r1 r2 : Rgx) : Bool :=
  (match r1 with | .compl r => r = r2 | _ => false) ||
  (match r2 with | .compl r => r = r1 | _ => false)

/-- Three-valued disjunction on `Option Bool` (l_true/l_false/l_undef). -/
def lor3 : Option Bool → Option Bool → Option Bool
  | some true, _ => some true
  | _, some true => some true
  | some false, some false => some false
  | _, _ => none

/-- Three-valued conjunction on `Option Bool`. -/
def land3 : Option Bool → Option Bool → Option Bool
  | some false, _ => some false
  | _, some false => some false
  | some true, some true => some true
  | _, _ => none

/-- Modelled from the spec: the `nullable` field of
`re().get_info(r)` (computed in seq_decl_plugin, outside src): a
three-valued structural nullability check, `none` when nullability
depends on uninterpreted parts. -/
def nullable_info : Rgx → Option Bool
  | .toRe (.strLit s) => some (s = [])
  | .toRe _ => none
  | .emp => some false
  | .full => some true
  | .fullChar => some false
  | .range _ _ => some false
  | .union a b => lor3 (nullable_info a) (nullable_info b)
  | .antimirovUnion a b => lor3 (nullable_info a) (nullable_info b)
  | .inter a b => land3 (nullable_info a) (nullable_info b)
  | .conc a b => land3 (nullable_info a) (nullable_info b)
  | .star _ => some true
  | .plus a => nullable_info a
  | .opt _ => some true
  | .compl a => (nullable_info a).map (! ·)
  | .loop1 a lo => if lo = 0 then some true else nullable_info a
  | .loop2 a lo hi =>
      if lo = 0 then some true
      else if hi < lo then some false else nullable_info a
  | .rev a => nullable_info a
  | .derivative _ _ => none
  | .reIte _ a b => match nullable_info a, nullable_info b with
      | some x, some y => if x = y then some x else none
      | _, _ => none
  | .diff a b => land3 (nullable_info a) ((nullable_info b).map (! ·))
  | .ofPred _ => some false
  | .reVar _ => none

/-- Modelled from the spec: `re().min_length` of seq_util (outside src):
a lower bound on the length of the words of the language, `none` standing
for `UINT_MAX` (empty language). -/
def re_min_length : Rgx → Option Nat
  | .toRe s => some (min_length s).2
  | .emp => none
  | .full => some 0
  | .fullChar => some 1
  | .range _ _ => some 1
  | .union a b => match re_min_length a, re_min_length b with
      | some x, some y => some (Nat.min x y)
      | some x, none => some x
      | none, y => y
  | .antimirovUnion a b => match re_min_length a, re_min_length b with
      | some x, some y => some (Nat.min x y)
      | some x, none => some x
      | none, y => y
  | .inter a b => match re_min_length a, re_min_length b with
      | some x, some y => some (Nat.max x y)
      | _, _ => none
  | .conc a b => match re_min_length a, re_min_length b with
      | some x, some y => some (x + y)
      | _, _ => none
  | .star _ => some 0
  | .plus a => re_min_length a
  | .opt _ => some 0
  | .compl _ => some 0
  | .loop1 a lo => if lo = 0 then some 0 else (re_min_length a).map (lo * ·)
  | .loop2 a lo hi =>
      if hi < lo then none
      else if lo = 0 then some 0 else (re_min_length a).map (lo * ·)
  | .rev a => re_min_length a
  | .diff a _ => re_min_length a
  | .derivative _ _ => some 0
  | .reIte _ a b => match re_min_length a, re_min_length b with
      | some x, some y => some (Nat.min x y)
      | _, _ => some 0
  | .ofPred _ => some 1
  | .reVar _ => some 0

/-- `re().get_info(r).min_length` as a plain number (UINT_MAX for an
empty language), the form compared with 0 in the normalizers; modelled
from the spec. -/
def re_info_min_length (r : Rgx) : Nat := (re_min_length r).getD 4294967295

/-- Modelled from the spec: `re().max_length` of seq_util (outside src):
an upper bound on word lengths, `none` for unbounded. -/
def re_max_length : Rgx → Option Nat
  | .toRe s => if (max_length s).1 then some (max_length s).2 else none
  | .emp => some 0
  | .full => none
  | .fullChar => some 1
  | .range _ _ => some 1
  | .union a b => match re_max_length a, re_max_length b with
      | some x, some y => some (Nat.max x y)
      | _, _ => none
  | .antimirovUnion a b => match re_max_length a, re_max_length b with
      | some x, some y => some (Nat.max x y)
      | _, _ => none
  | .inter a b => match re_max_length a, re_max_length b with
      | some x, some y => some (Nat.min x y)
      | some x, none => some x
      | none, y => y
  | .conc a b => match re_max_length a, re_max_length b with
      | some x, some y => some (x + y)
      | _, _ => none
  | .star _ => none
  | .plus _ => none
  | .opt a => re_max_length a
  | .compl _ => none
  | .loop1 _ _ => none
  | .loop2 a _ hi => (re_max_length a).map (hi * ·)
  | .rev a => re_max_length a
  | .diff a _ => re_max_length a
  | .derivative _ _ => none
  | .reIte _ a b => match re_max_length a, re_max_length b with
      | some x, some y => some (Nat.max x y)
      | _, _ => none
  | .ofPred _ => some 1
  | .reVar _ => none

/-- The body of the `while` loop of `seq_rewriter::is_subset` (sound,
not complete, subset check): identity, `Σ*` on the right, `Σ+` on the
right of a non-nullable regex, stripping matching concatenation heads,
a `Σ*`-headed right concatenation, and loop-bound comparison. -/
def is_subset_main (r1 r2 : Rgx) : Bool :=
  if r1 = r2 then true
  else if r2 = .full then true
  else if is_dot_plus r2 && (nullable_info r1 = some false : Bool) then true
  else
    match r1, r2 with
    | .conc ra1 ra2, .conc rb1 rb2 =>
        (match ra2, rb2 with
         | .conc a2 a3, .conc b2 b3 =>
             if ra1 = rb1 ∧ a2 = b2 then is_subset_main a3 b3
             else if rb1 = .full then
               is_subset_main (.conc a2 a3) (.conc rb1 (.conc b2 b3))
             else match ra1, rb1 with
               | .loop2 c1 la ua, .loop2 c2 lb ub =>
                   if c1 = c2 ∧ lb ≤ la ∧ ua ≤ ub then
                     is_subset_main (.conc a2 a3) (.conc b2 b3)
                   else false
               | _, _ => false
         | ra2, rb2 =>
             if rb1 = .full then is_subset_main ra2 (.conc rb1 rb2)
             else match ra1, rb1 with
               | .loop2 c1 la ua, .loop2 c2 lb ub =>
                   if c1 = c2 ∧ lb ≤ la ∧ ua ≤ ub then is_subset_main ra2 rb2
                   else false
               | _, _ => false)
    | .loop2 c1 la ua, .loop2 c2 lb ub => c1 = c2 ∧ lb ≤ la ∧ ua ≤ ub
    | _, _ => false
  termination_by sizeOf r1 + sizeOf r2
  decreasing_by all_goals (simp <;> omega)

/-- `seq_rewriter::is_subset`: complement duality, then the main loop. -/
def is_subset (r1 r2 : Rgx) : Bool :=
  match r1, r2 with
  | .compl a, .compl b => is_subset b a
  | x, y => is_subset_main x y
  termination_by sizeOf r1 + sizeOf r2
  decreasing_by simp; omega

/-- The `test` lambda of `merge_regex_sets`: decompose along `union`
(`k = true`) or `intersection` (`k = false`). -/
def merge_test (k : Bool) (r : Rgx) : Option (Rgx × Rgx) :=
  match k, r with
  | true, .union a b => some (a, b)
  | false, .inter a b => some (a, b)
  | _, _ => none

/-- The `compose` lambda of the normalizers: collapse by the subset
check, otherwise rebuild a union (resp. intersection) node. -/
def merge_compose (k : Bool) (r1 r2 : Rgx) : Rgx :=
  if k then
    if is_subset r1 r2 then r2 else if is_subset r2 r1 then r1 else .union r1 r2
  else
    if is_subset r1 r2 then r1 else if is_subset r2 r1 then r2 else .inter r1 r2

/-- The annihilating element: `Σ*` for union, `∅` for intersection. -/
def merge_unit (k : Bool) : Rgx := if k then .full else .emp

/-- The ordering used by the merge: equal terms are 0, otherwise the
term ids (complement-folded) decide; the id function is an external
capability of the hash-consing manager and is a parameter here. -/
def re_compare (rid : Rgx → Nat) (x y : Rgx) : Int :=
  if x = y then 0
  else
    let xid := match x with | .compl z => rid z | _ => rid x
    let yid := match y with | .compl z => rid z | _ => rid y
    if xid < yid then -1 else 1

theorem merge_test_size {k : Bool} {r a b : Rgx}
    (h : merge_test k r = some (a, b)) : sizeOf a < sizeOf r ∧ sizeOf b < sizeOf r := by
  cases k <;> cases r <;> simp_all [merge_test] <;> omega

/-- `seq_rewriter::merge_regex_sets`: ordered merge of the two operand
chains, with the accumulated prefix carried explicitly (the source's
`prefix` vector; `composeresult` is the right fold of `compose` over
it).  The source swaps `ar` and `br` when only `br` is decomposable;
here that case is the `none, some` arm with the roles exchanged. -/
def merge_regex_sets (rid : Rgx → Nat) (k : Bool) (ar br : Rgx)
    (pre : List Rgx) : Rgx :=
  if ar = br then pre.foldr (merge_compose k) ar
  else if are_complements ar br then merge_unit k
  else
    match h1 : merge_test k ar, h2 : merge_test k br with
    | some (a, ar1), some (b, br1) =>
        if are_complements a b then merge_unit k
        else
          let c := re_compare rid a b
          if c = 0 then merge_regex_sets rid k ar1 br1 (pre ++ [a])
          else if c = -1 then merge_regex_sets rid k ar1 br (pre ++ [a])
          else merge_regex_sets rid k ar br1 (pre ++ [b])
    | some (a, ar1), none =>
        if are_complements a br then merge_unit k
        else
          let c := re_compare rid a br
          if c = 0 then pre.foldr (merge_compose k) ar
          else if c = -1 then merge_regex_sets rid k ar1 br (pre ++ [a])
          else (pre ++ [br]).foldr (merge_compose k) ar
    | none, some (b, br1) =>
        if are_complements b ar then merge_unit k
        else
          let c := re_compare rid b ar
          if c = 0 then pre.foldr (merge_compose k) br
          else if c = -1 then merge_regex_sets rid k br1 ar (pre ++ [b])
          else (pre ++ [ar]).foldr (merge_compose k) br
    | none, none =>
        if re_compare rid ar br = -1 then (pre ++ [ar]).foldr (merge_compose k) br
        else (pre ++ [br]).foldr (merge_compose k) ar
  termination_by sizeOf ar + sizeOf br
  decreasing_by
  · obtain ⟨ha1, ha2⟩ := merge_test_size h1
    obtain ⟨hb1, hb2⟩ := merge_test_size h2
    omega
  · obtain ⟨ha1, ha2⟩ := merge_test_size h1
    obtain ⟨hb1, hb2⟩ := merge_test_size h2
    omega
  · obtain ⟨ha1, ha2⟩ := merge_test_size h1
    obtain ⟨hb1, hb2⟩ := merge_test_size h2
    omega
  · obtain ⟨ha1, ha2⟩ := merge_test_size h1
    omega
  · obtain ⟨hb1, hb2⟩ := merge_test_size h2
    omega

/-- `seq_rewriter::mk_regex_union_normalize`: identities for `∅`, `Σ*`
and equal operands, the `Σ+` absorption against a positive-minimal-length
operand, then the ordered merge. -/
def mk_regex_union_normalize (rid : Rgx → Nat) (r1 r2 : Rgx) : Rgx :=
  if r1 = r2 ∨ r2 = .emp ∨ r1 = .full then r1
  else if r1 = .emp ∨ r2 = .full then r2
  else if is_dot_plus r1 && 0 < re_info_min_length r2 then r1
  else if is_dot_plus r2 && 0 < re_info_min_length r1 then r2
  else merge_regex_sets rid true r1 r2 []

/-- `seq_rewriter::mk_regex_inter_normalize`: the dual cascade, with
the `ε` shortcut through the nullability info. -/
def mk_regex_inter_normalize (rid : Rgx → Nat) (r1 r2 : Rgx) : Rgx :=
  let p := if is_epsilon r2 then (r2, r1) else (r1, r2)
  let r1 := p.1
  let r2 := p.2
  if r1 = r2 ∨ r1 = .emp ∨ r2 = .full then r1
  else if r2 = .emp ∨ r1 = .full then r2
  else if is_epsilon r1 then
    match nullable_info r2 with
    | some true => r1
    | some false => .emp
    | none => merge_regex_sets rid false r1 r2 []
  else if is_dot_plus r1 && 0 < re_info_min_length r2 then r2
  else if is_dot_plus r2 && 0 < re_info_min_length r1 then r1
  else merge_regex_sets rid false r1 r2 []

/- ------------------------------------------------------------------
Equation reducer (seq_rewriter::reduce_eq and its stages).
------------------------------------------------------------------ -/

/-- `str().is_unit`. -/
def is_unit : E → Bool
  | .unit _ => true
  | _ => false

/-- Modelled from the spec: `m().are_distinct` (ast_manager and
seq_decl_plugin, outside src): sound syntactic distinctness on the value
terms the reducer compares (constant characters, string literals, and
units of constant characters). -/
def are_distinct : E → E → Bool
  | .charVal c, .charVal d => c ≠ d
  | .unit (.charVal c), .unit (.charVal d) => c ≠ d
  | _, _ => false

/-- Modelled from the spec: `m().are_equal` — identity on hash-consed
terms. -/
def are_equal (a b : E) : Bool := a = b

/-- `m().is_value(r) && str().is_unit(r)`: a unit of a constant
character (the `is_unit_value` lambda of reduce_value_clash). -/
def is_unit_value : E → Bool
  | .unit (.charVal _) => true
  | _ => false

/-- `seq_rewriter::remove_empty_and_concats`: drop empty atoms; if any
concatenation atom remains, re-flatten through `get_concat`. -/
def remove_empty_and_concats (es : List E) : List E :=
  let es1 := es.filter fun e => e ≠ .strLit []
  if es1.any fun e => match e with | .concat _ _ => true | _ => false
  then es1.flatMap get_concat
  else es1

/-- Atom weight for the termination of the front/back cancellation:
string literals weigh one more than their length. -/
def msize : E → Nat
  | .strLit s => 1 + s.length
  | _ => 1

def msum (es : List E) : Nat := (es.map msize).sum

theorem msize_pos (e : E) : 1 ≤ msize e := by
  cases e <;> simp [msize]

theorem msum_cons (e : E) (es : List E) : msum (e :: es) = msize e + msum es := by
  simp [msum]

/-- `seq_rewriter::reduce_front`: peel matching atoms from the front of
the two flattened concatenations.  When the left head is a string
literal and the right head a unit the source swaps the two vectors and
continues; the swap is permanent, so the result lists come back
exchanged in that case.  Returns `none` when a character clash proves
the disequality. -/
def reduce_front : List E → List E → List (E × E) →
    Option (List E × List E × List (E × E))
  | [], rs, eqs => some ([], rs, eqs)
  | l :: ls, [], eqs => some (l :: ls, [], eqs)
  | l :: ls, r :: rs, eqs =>
    if l = r then reduce_front ls rs eqs
    else match l, r with
    | .unit a, .unit b =>
        if are_distinct a b then none
        else reduce_front ls rs (eqs ++ [(a, b)])
    | .unit a, .strLit s =>
        match s with
        | [] => some (.unit a :: ls, .strLit [] :: rs, eqs)
        | c :: s' =>
            reduce_front ls (if s' = [] then rs else .strLit s' :: rs)
              (eqs ++ [(.charVal c, a)])
    | .strLit s, .unit a =>
        match s with
        | [] => some (.strLit [] :: ls, .unit a :: rs, eqs)
        | c :: s' =>
            reduce_front rs (if s' = [] then ls else .strLit s' :: ls)
              (eqs ++ [(.charVal c, a)])
    | .strLit s1, .strLit s2 =>
        let m := Nat.min s1.length s2.length
        if s1.take m ≠ s2.take m then none
        else
          reduce_front
            (if m < s1.length then .strLit (s1.drop m) :: ls else ls)
            (if m < s2.length then .strLit (s2.drop m) :: rs else rs)
            eqs
    | _, _ => some (l :: ls, r :: rs, eqs)
  termination_by ls rs _ => msum ls + msum rs
  decreasing_by
  all_goals (try simp_all [msum_cons, msize])
  all_goals (repeat' split)
  all_goals (try simp_all [msum_cons, msize])
  all_goals omega

/-- The back-cancellation core, on the reversed atom lists (heads are
the original last atoms; strings are peeled from their back).  Mirrors
`seq_rewriter::reduce_back` case by case, including the permanent
vector swap when the left last atom is a string and the right last atom
a unit. -/
def reduce_back_rev : List E → List E → List (E × E) →
    Option (List E × List E × List (E × E))
  | [], rs, eqs => some ([], rs, eqs)
  | l :: ls, [], eqs => some (l :: ls, [], eqs)
  | l :: ls, r :: rs, eqs =>
    if l = r then reduce_back_rev ls rs eqs
    else match l, r with
    | .unit a, .unit b =>
        if are_distinct a b then none
        else reduce_back_rev ls rs (eqs ++ [(a, b)])
    | .unit a, .strLit s =>
        match s with
        | [] => some (.unit a :: ls, .strLit [] :: rs, eqs)
        | c :: s' =>
            reduce_back_rev ls
              (if (c :: s').length = 1 then rs else .strLit (c :: s').dropLast :: rs)
              (eqs ++ [(.charVal ((c :: s').getLastD 0), a)])
    | .strLit s, .unit a =>
        match s with
        | [] => some (.strLit [] :: ls, .unit a :: rs, eqs)
        | c :: s' =>
            reduce_back_rev rs
              (if (c :: s').length = 1 then ls else .strLit (c :: s').dropLast :: ls)
              (eqs ++ [(.charVal ((c :: s').getLastD 0), a)])
    | .strLit s1, .strLit s2 =>
        let m := Nat.min s1.length s2.length
        if s1.reverse.take m ≠ s2.reverse.take m then none
        else
          reduce_back_rev
            (if m < s1.length then .strLit (s1.take (s1.length - m)) :: ls else ls)
            (if m < s2.length then .strLit (s2.take (s2.length - m)) :: rs else rs)
            eqs
    | _, _ => some (l :: ls, r :: rs, eqs)
  termination_by ls rs _ => msum ls + msum rs
  decreasing_by
  all_goals (try simp_all [msum_cons, msize])
  all_goals (repeat' split)
  all_goals (try simp_all [msum_cons, msize])
  all_goals omega

/-- `seq_rewriter::reduce_back`, as the reversed-list core conjugated by
`List.reverse`. -/
def reduce_back (ls rs : List E) (eqs : List (E × E)) :
    Option (List E × List E × List (E × E)) :=
  (reduce_back_rev ls.reverse rs.reverse eqs).map fun t =>
    (t.1.reverse, t.2.1.reverse, t.2.2)

/-- `seq_rewriter::is_string(n, es, s)`: the concatenation of the atoms
when every atom is a string literal or a unit of a constant
character. -/
def as_string_list : List E → Option (List Nat)
  | [] => some []
  | .strLit s :: es => (as_string_list es).map (s ++ ·)
  | .unit (.charVal c) :: es => (as_string_list es).map (c :: ·)
  | _ => none

/-- `seq_rewriter::reduce_itos`: when the left side is a single
`itos(n)` and the right side is a literal word, refute non-digit or
leading-zero words, and otherwise replace the equation by `n = value`
(clearing both sides) when the word is the canonical decimal of its
value. -/
def reduce_itos (ls rs : List E) (eqs : List (E × E)) :
    Option (List E × List E × List (E × E)) :=
  match ls, as_string_list rs with
  | [.itos n], some s =>
      if ¬ s.all is_digit_code then none
      else if 1 < s.length ∧ s.head? = some 48 then none
      else
        let r := digits_to_nat s
        if s = decimal_digits r then some ([], [], eqs ++ [(n, .intVal (r : Int))])
        else some (ls, rs, eqs)
  | _, _ => some (ls, rs, eqs)

/-- The scan of `reduce_value_clash`: remove from `es` one occurrence of
each right-hand atom; `none` is the source's early `return true` (an
unmatched non-value atom ends the check without refutation). -/
def vc_loop : List E → List E → Option (List E)
  | [], es => some es
  | r :: rs, es =>
      if es.contains r then vc_loop rs (es.erase r)
      else if is_unit_value r then vc_loop rs es
      else none

/-- `seq_rewriter::reduce_value_clash`: if every right-hand atom is
either matched one-to-one by an identical left-hand atom or is a
value unit, and the unmatched left-hand atoms are a nonempty set of
value units, the equation is refuted. -/
def reduce_value_clash (ls rs : List E) (eqs : List (E × E)) :
    Option (List E × List E × List (E × E)) :=
  if ls.isEmpty ∨ rs.isEmpty then some (ls, rs, eqs)
  else match vc_loop rs ls with
    | none => some (ls, rs, eqs)
    | some es =>
        if es.isEmpty then some (ls, rs, eqs)
        else if es.all is_unit_value then none
        else some (ls, rs, eqs)

/-- `seq_rewriter::has_var`: some atom has minimal length 0. -/
def has_var (es : List E) : Bool := es.any fun e => (min_length e).2 = 0

/-- `seq_rewriter::set_empty` with `all = false`: the equations setting
the possibly-empty atoms to the empty sequence. -/
def set_empty_eqs (es : List E) : List (E × E) :=
  es.filterMap fun e =>
    let m := min_length e
    if 0 < m.2 then none
    else if m.1 ∧ m.2 = 0 then none
    else some (.strLit [], e)

/-- `seq_rewriter::set_empty` on a single atom with `all = true`:
`none` refutes (the atom has positive minimal length). -/
def set_empty_all (e : E) : Option (List (E × E)) :=
  let m := min_length e
  if 0 < m.2 then none
  else if m.1 ∧ m.2 = 0 then some []
  else some [(.strLit [], e)]

/-- `seq_rewriter::concat_non_empty`: keep only unit, string and ite
atoms and concatenate them. -/
def concat_non_empty (es : List E) : E :=
  mk_concat_list (es.filter fun e =>
    match e with | .unit _ | .strLit _ | .ite _ _ _ => true | _ => false)

/-- `seq_rewriter::reduce_by_length`: refute when the exactly-bounded
side is shorter than the other side's minimum; when both minima agree,
are positive, and one side has possibly-empty atoms, set those atoms
empty and equate the remaining value parts. -/
def reduce_by_length (ls rs : List E) (eqs : List (E × E)) :
    Option (List E × List E × List (E × E)) :=
  if ls.isEmpty ∧ rs.isEmpty then some (ls, rs, eqs)
  else
    let m1 := min_length_list ls
    let m2 := min_length_list rs
    if m1.1 ∧ m1.2 < m2.2 then none
    else if m2.1 ∧ m2.2 < m1.2 then none
    else if m1.1 ∧ m1.2 = m2.2 ∧ 0 < m1.2 ∧ has_var rs then
      some ([], [], eqs ++ set_empty_eqs rs ++
        [(concat_non_empty ls, concat_non_empty rs)])
    else if m2.1 ∧ m1.2 = m2.2 ∧ 0 < m1.2 ∧ has_var ls then
      some ([], [], eqs ++ set_empty_eqs ls ++
        [(concat_non_empty ls, concat_non_empty rs)])
    else some (ls, rs, eqs)

/-- The matching loop of `reduce_subsequence`: the first unused
right-hand position holding the identical atom, or any unit when the
left atom is a unit. -/
def find_match (x : E) (rs : List E) (used : List Nat) : Option Nat :=
  (List.range rs.length).find? fun j =>
    j ∉ used ∧ (x = rs.getD j .btrue ∨ (is_unit x ∧ is_unit (rs.getD j .btrue)))

def subseq_marks : List E → List E → List Nat → Option (List Nat)
  | [], _, used => some used
  | x :: xs, rs, used =>
      match find_match x rs used with
      | some j => subseq_marks xs rs (used ++ [j])
      | none => none

/-- The second loop of `reduce_subsequence`: keep the matched
right-hand atoms, set the others empty (refuting on a positive-minimum
atom). -/
def subseq_drop : Nat → List E → List Nat → Option (List E × List (E × E))
  | _, [], _ => some ([], [])
  | i, y :: ys, used =>
      if i ∈ used then
        (subseq_drop (i + 1) ys used).map fun t => (y :: t.1, t.2)
      else match set_empty_all y with
        | none => none
        | some q =>
            (subseq_drop (i + 1) ys used).map fun t => (t.1, q ++ t.2)

/-- `seq_rewriter::reduce_subsequence`: when the shorter side embeds
into the longer one position by position (identical atoms, or unit
against unit), the unmatched longer-side atoms must be empty; a
positive-minimum unmatched atom refutes the equation.  The sides are
swapped first so the shorter one is scanned. -/
def reduce_subsequence (ls0 rs0 : List E) (eqs : List (E × E)) :
    Option (List E × List E × List (E × E)) :=
  let p := if rs0.length < ls0.length then (rs0, ls0) else (ls0, rs0)
  let ls := p.1
  let rs := p.2
  if ls.length = rs.length then some (ls, rs, eqs)
  else if ls.isEmpty ∧ rs.length = 1 then some (ls, rs, eqs)
  else match subseq_marks ls rs [] with
  | none => some (ls, rs, eqs)
  | some used =>
      match subseq_drop 0 rs used with
      | none => none
      | some (kept, qs) =>
          if kept.length = rs.length then some (ls, rs, eqs ++ qs)
          else if ls.isEmpty then some ([], kept, eqs ++ qs)
          else some ([], [], eqs ++ qs ++
            [(mk_concat_list ls, mk_concat_list kept)])

/-- The scanning lambda of `non_overlap`: compare `p1[i]` with
`p2[start2 + i]` from `start1` for `cnt` positions; a provably distinct
pair rules the alignment out (`false`), a not-provably-equal pair makes
it possible (`true`), and exhausting the range makes it possible. -/
def can_overlap_u_go (p1 p2 : List E) (start2 : Nat) : Nat → Nat → Bool
  | _, 0 => true
  | i, cnt + 1 =>
      if are_distinct (p1.getD i .btrue) (p2.getD (start2 + i) .btrue) then false
      else if ¬ are_equal (p1.getD i .btrue) (p2.getD (start2 + i) .btrue) then true
      else can_overlap_u_go p1 p2 start2 (i + 1) cnt

def can_overlap_u (p1 p2 : List E) (start1 end1 start2 : Nat) : Bool :=
  can_overlap_u_go p1 p2 start2 start1 (end1 - start1)

/-- The string version of the scan: the compared segment must agree. -/
def can_overlap_s (s1 s2 : List Nat) (start1 end1 start2 : Nat) : Bool :=
  (List.range end1).all fun i =>
    i < start1 ∨ s1.getD i 0 = s2.getD (start2 + i) 0

/-- `seq_rewriter::non_overlap` on strings (core, `|s1| ≤ |s2|`). -/
def non_overlap_s_core (s1 s2 : List Nat) : Bool :=
  let sz1 := s1.length
  let sz2 := s2.length
  ((List.range sz1).all fun i => i = 0 ∨ ¬ can_overlap_s s1 s2 i sz1 0) &&
  ((List.range sz2).all fun j => ¬ (j + sz1 < sz2) ∨ ¬ can_overlap_s s1 s2 0 sz1 j) &&
  ((List.range sz2).all fun j => j < sz2 - sz1 ∨ ¬ can_overlap_s s1 s2 0 (sz2 - j) j)

def non_overlap_s (s1 s2 : List Nat) : Bool :=
  if s2.length < s1.length then non_overlap_s_core s2 s1
  else non_overlap_s_core s1 s2

/-- `seq_rewriter::non_overlap` on atom vectors (core, `|p1| ≤ |p2|`):
false on an empty side, strings handled by the string version, only
all-unit vectors otherwise, then the three alignment loops. -/
def non_overlap_u_core (p1 p2 : List E) : Bool :=
  let sz1 := p1.length
  let sz2 := p2.length
  if sz1 = 0 ∨ sz2 = 0 then false
  else match p1, p2 with
  | [.strLit s1], [.strLit s2] => non_overlap_s s1 s2
  | p1, p2 =>
    if p1.any (fun e => ¬ is_unit e) ∨ p2.any (fun e => ¬ is_unit e) then false
    else
      ((List.range sz1).all fun i => i = 0 ∨ ¬ can_overlap_u p1 p2 i sz1 0) &&
      ((List.range sz2).all fun j => ¬ (j + sz1 < sz2) ∨ ¬ can_overlap_u p1 p2 0 sz1 j) &&
      ((List.range sz2).all fun j => j < sz2 - sz1 ∨ ¬ can_overlap_u p1 p2 0 (sz2 - j) j)

def non_overlap_u (p1 p2 : List E) : Bool :=
  if p2.length < p1.length then non_overlap_u_core p2 p1
  else non_overlap_u_core p1 p2

/-- The unit-run accumulation of `reduce_non_overlap`: the maximal runs
of consecutive unit atoms. -/
def unit_runs : List E → List E → List (List E)
  | [], acc => if acc.isEmpty then [] else [acc]
  | x :: xs, acc =>
      if is_unit x then unit_runs xs (acc ++ [x])
      else if acc.isEmpty then unit_runs xs []
      else acc :: unit_runs xs []

/-- `seq_rewriter::reduce_non_overlap`: when the right side is all
units and some contiguous unit run of the left side cannot overlap it
in any alignment, the equation is refuted. -/
def reduce_non_overlap (ls rs : List E) (eqs : List (E × E)) :
    Option (List E × List E × List (E × E)) :=
  if rs.any fun u => ¬ is_unit u then some (ls, rs, eqs)
  else if (unit_runs ls []).any fun p => non_overlap_u p rs then none
  else some (ls, rs, eqs)

/-- `seq_rewriter::reduce_eq` on flattened concatenations: the staged
pipeline; `none` is the source's `false` return (the equation is
refuted); otherwise the final residual lists and derived equations are
returned (the source's `change` flag is the hash comparison of the
final state with the input and carries no extra information). -/
def reduce_eq (ls0 rs0 : List E) (eqs : List (E × E)) :
    Option (List E × List E × List (E × E)) :=
  let ls := remove_empty_and_concats ls0
  let rs := remove_empty_and_concats rs0
  (reduce_back ls rs eqs).bind fun t1 =>
  (reduce_front t1.1 t1.2.1 t1.2.2).bind fun t2 =>
  (reduce_itos t2.1 t2.2.1 t2.2.2).bind fun t3 =>
  (reduce_itos t3.2.1 t3.1 t3.2.2).bind fun t4 =>
  (reduce_value_clash t4.2.1 t4.1 t4.2.2).bind fun t5 =>
  (reduce_by_length t5.1 t5.2.1 t5.2.2).bind fun t6 =>
  (reduce_subsequence t6.1 t6.2.1 t6.2.2).bind fun t7 =>
  (reduce_non_overlap t7.1 t7.2.1 t7.2.2).bind fun t8 =>
  (reduce_non_overlap t8.2.1 t8.1 t8.2.2).map fun t9 =>
  (t9.2.1, t9.1, t9.2.2)

/-- The word denoted by a flattened concatenation. -/
def evalL (es : List E) (σ : Assign) : List Nat :=
  (es.map fun e => evalS e σ).join

/-- The disequality of two flattened concatenations is provable: they
differ under every assignment. -/
def provably_distinct (ls rs : List E) : Prop :=
  ∀ σ : Assign, evalL ls σ ≠ evalL rs σ

/-- Word semantics with each atom's contribution reversed: the
invariant maintained by the reversed-list core of `reduce_back`. -/
def evalR (es : List E) (σ : Assign) : List Nat :=
  (es.map fun e => (evalS e σ).reverse).join

/-- The character under a unit-value atom. -/
def unit_char : E → Nat
  | .unit (.charVal c) => c
  | _ => 0

/- ------------------------------------------------------------------
Membership rewriting (seq_rewriter::mk_str_in_regexp and helpers).
The heavy external engines are abstracted: `deriv` stands for
`mk_derivative` on a character, `ground` for the ast-level
`re().is_ground` (outside src); branch results whose construction lives
in other rewriters are recorded as a `MemRes` rule application carrying
the branch inputs.
------------------------------------------------------------------ -/

/-- The rewrite produced by `mk_str_in_regexp` (`none` is BR_FAILED):
which rule fired, with its arguments. -/
inductive MemRes where
  | btrue
  | bfalse
  | eqRes (x y : E)
  | pfx (u a : E)
  | sfx (u a : E)
  | iteNil (a : E) (b1 : Rgx)
  | nullRes (b : Rgx)
  | antiRes (a : E) (b : Rgx)
  | revRes (a : E) (b : Rgx)
  | headTail (a : E) (b : Rgx)
  | headTailRev (a : E) (b : Rgx)
  deriving DecidableEq, Repr

/-- `seq_rewriter::lift_str_from_to_re` (with `lift_str_from_to_re_ite`):
strip `to_re`, also through an `ite` of regexes. -/
def lift_str_from_to_re : Rgx → Option E
  | .toRe s => some s
  | .reIte c r1 r2 =>
      match lift_str_from_to_re r1, lift_str_from_to_re r2 with
      | some s1, some s2 => some (.ite c s1 s2)
      | _, _ => none
  | _ => none

def has_head_tail : E → Bool
  | .unit _ => true
  | .strLit s => !s.isEmpty
  | .concat h _ => has_head_tail h
  | _ => false

def has_head_tail_reversed : E → Bool
  | .unit _ => true
  | .strLit s => !s.isEmpty
  | .concat _ t => has_head_tail_reversed t
  | _ => false

def has_re_head_tail : Rgx → Bool
  | .conc r1 _ =>
      (re_min_length r1).isSome && re_max_length r1 = re_min_length r1
  | _ => false

def has_re_head_tail_reversed : Rgx → Bool
  | .conc _ r2 =>
      if (re_min_length r2).isSome ∧ re_max_length r2 = re_min_length r2
      then true
      else has_re_head_tail_reversed r2
  | _ => false

def deriv_word (deriv : Nat → Rgx → Rgx) : List Nat → Rgx → Option Rgx
  | [], r => some r
  | c :: s, r => if r = .emp then none else deriv_word deriv s (deriv c r)

def str_in_re_lit (deriv : Nat → Rgx → Rgx) (s : List Nat) (b : Rgx) :
    Option MemRes :=
  match deriv_word deriv s b with
  | none => some .bfalse
  | some r =>
      match nullable_info r with
      | some true => some .btrue
      | some false => some .bfalse
      | none => none

def pat_pfx : Rgx → Option E
  | .conc (.toRe e) .full => some e
  | _ => none

def pat_sfx : Rgx → Option E
  | .conc .full (.toRe e) => some e
  | _ => none

def pat_opt_eps : Rgx → Option Rgx
  | .opt b1 => some b1
  | .union b1 b2 =>
      if is_epsilon b2 then some b1
      else if is_epsilon b1 then some b2
      else none
  | _ => none

def mk_str_in_regexp (deriv : Nat → Rgx → Rgx) (ground : Rgx → Bool)
    (a : E) (b : Rgx) : Option MemRes :=
  if b = .emp then some .bfalse
  else if b = .full then some .btrue
  else
    let rest : Option MemRes :=
      match lift_str_from_to_re b with
      | some s => some (.eqRes a s)
      | none =>
        match pat_pfx b with
        | some e => some (.pfx e a)
        | none =>
          match pat_sfx b with
          | some e => some (.sfx e a)
          | none =>
            match pat_opt_eps b with
            | some b1 => some (.iteNil a b1)
            | none =>
              if a = .strLit [] then some (.nullRes b)
              else if has_head_tail a then some (.antiRes a b)
              else if has_head_tail_reversed a then some (.revRes a b)
              else if has_re_head_tail b then some (.headTail a b)
              else if has_re_head_tail_reversed b then some (.headTailRev a b)
              else none
    match a with
    | .strLit s =>
        if ground b then
          match str_in_re_lit deriv s b with
          | some r => some r
          | none => rest
        else rest
    | _ => rest

/- ==================================================================
Theorems.
================================================================== -/

theorem evalL_nil (σ : Assign) : evalL [] σ = [] := rfl

theorem evalL_cons (e : E) (es : List E) (σ : Assign) :
    evalL (e :: es) σ = evalS e σ ++ evalL es σ := by
  simp [evalL]

theorem evalL_append (xs ys : List E) (σ : Assign) :
    evalL (xs ++ ys) σ = evalL xs σ ++ evalL ys σ := by
  simp [evalL]

theorem evalS_strLit (s : List Nat) (σ : Assign) : evalS (.strLit s) σ = s := rfl

theorem evalS_unit (a : E) (σ : Assign) :
    evalS (.unit a) σ = [(eval σ a).asC] := rfl

theorem are_distinct_asC {a b : E} (σ : Assign)
    (hd : are_distinct a b = true) : (eval σ a).asC ≠ (eval σ b).asC := by
  cases a <;> cases b <;> simp_all [are_distinct, eval, Val.asC]
  case unit.unit x y =>
    cases x <;> cases y <;> simp_all [are_distinct, eval, Val.asC]

theorem are_distinct_evalS {a b : E} (σ : Assign)
    (hd : are_distinct a b = true) (ha : is_unit a = true)
    (hb : is_unit b = true) : evalS a σ ≠ evalS b σ := by
  cases a <;> cases b <;> try simp_all [are_distinct, is_unit]
  case unit.unit x y =>
    cases x <;> cases y <;>
      simp_all [are_distinct, evalS, eval, Val.asC, Val.asS]

theorem evalL_get_concat (e : E) (σ : Assign) :
    evalL (get_concat e) σ = evalS e σ := by
  induction e with
  | concat a b iha ihb =>
      simp only [get_concat, evalL_append, iha, ihb]
      simp [evalS, eval, Val.asS]
  | strLit s => cases s <;> simp [get_concat, evalL, evalS, eval, Val.asS]
  | _ => simp [get_concat, evalL]

theorem evalL_remove_empty_and_concats (es : List E) (σ : Assign) :
    evalL (remove_empty_and_concats es) σ = evalL es σ := by
  have h1 : ∀ fs : List E,
      evalL (List.filter (fun e => !decide (e = E.strLit [])) fs) σ = evalL fs σ := by
    intro fs
    induction fs with
    | nil => rfl
    | cons f fs ih =>
        by_cases hf : f = E.strLit []
        · subst hf
          simpa [List.filter, evalL_cons, evalS, eval, Val.asS] using ih
        · simp [List.filter, hf, evalL_cons, ih]
  have h2 : ∀ fs : List E, evalL (fs.flatMap get_concat) σ = evalL fs σ := by
    intro fs
    induction fs with
    | nil => rfl
    | cons f fs ih =>
        simp [List.flatMap_cons, evalL_append, evalL_cons, ih, evalL_get_concat]
  simp only [remove_empty_and_concats, ne_eq, decide_not]
  split
  · rw [h2, h1]
  · rw [h1]

theorem reduce_front_sound (ls rs : List E) (eqs : List (E × E)) (σ : Assign)
    (h : evalL ls σ = evalL rs σ) :
    ∃ t, reduce_front ls rs eqs = some t ∧ evalL t.1 σ = evalL t.2.1 σ := by
  induction ls, rs, eqs using reduce_front.induct with
  | case1 rs eqs => exact ⟨([], rs, eqs), by simp [reduce_front], h⟩
  | case2 l ls eqs => exact ⟨(l :: ls, [], eqs), by simp [reduce_front], h⟩
  | case3 ls r rs eqs ih =>
      rw [evalL_cons, evalL_cons] at h
      obtain ⟨t, ht, hs⟩ := ih (List.append_cancel_left h)
      exact ⟨t, by cases r <;> simp [reduce_front, ht], hs⟩
  | case4 ls rs eqs a b hd hne =>
      exfalso
      rw [evalL_cons, evalL_cons, evalS_unit, evalS_unit] at h
      exact are_distinct_asC σ hd (List.head_eq_of_cons_eq h)
  | case5 ls rs eqs a b hd hne ih =>
      rw [evalL_cons, evalL_cons, evalS_unit, evalS_unit] at h
      obtain ⟨t, ht, hs⟩ := ih (List.tail_eq_of_cons_eq h)
      exact ⟨t, by simp [reduce_front, hne, hd, ht], hs⟩
  | case6 ls rs eqs a hne =>
      exact ⟨(E.unit a :: ls, E.strLit [] :: rs, eqs), by simp [reduce_front, hne], h⟩
  | case7 ls rs eqs a c s' hne ih =>
      rw [evalL_cons, evalL_cons, evalS_unit, evalS_strLit] at h
      have h2 : evalL ls σ =
          evalL (if s' = [] then rs else E.strLit s' :: rs) σ := by
        have h3 := List.tail_eq_of_cons_eq h
        by_cases hs : s' = []
        · subst hs
          simpa using h3
        · simp only [hs, if_neg, if_false, evalL_cons, evalS_strLit]
          exact h3
      obtain ⟨t, ht, hs⟩ := ih h2
      simp only [dite_eq_ite] at ht
      exact ⟨t, by simp [reduce_front, hne, ht], hs⟩
  | case8 ls rs eqs a hne =>
      exact ⟨(E.strLit [] :: ls, E.unit a :: rs, eqs), by simp [reduce_front, hne], h⟩
  | case9 ls rs eqs a c s' hne ih =>
      rw [evalL_cons, evalL_cons, evalS_unit, evalS_strLit] at h
      have h2 : evalL rs σ =
          evalL (if s' = [] then ls else E.strLit s' :: ls) σ := by
        have h3 := (List.tail_eq_of_cons_eq h).symm
        by_cases hs : s' = []
        · subst hs
          simpa using h3
        · simp only [hs, if_neg, if_false, evalL_cons, evalS_strLit]
          exact h3
      obtain ⟨t, ht, hs⟩ := ih h2
      simp only [dite_eq_ite] at ht
      exact ⟨t, by simp [reduce_front, hne, ht], hs⟩
  | case10 ls rs eqs s1 s2 m hmm hne =>
      exfalso
      rw [evalL_cons, evalL_cons, evalS_strLit, evalS_strLit] at h
      have hm1 : Nat.min s1.length s2.length ≤ s1.length := Nat.min_le_left _ _
      have hm2 : Nat.min s1.length s2.length ≤ s2.length := Nat.min_le_right _ _
      have h4 := congrArg (List.take (Nat.min s1.length s2.length)) h
      rw [List.take_append_of_le_length hm1,
          List.take_append_of_le_length hm2] at h4
      exact hmm h4
  | case11 ls rs eqs s1 s2 m hmm hne ih =>
      rw [evalL_cons, evalL_cons, evalS_strLit, evalS_strLit] at h
      have hm1 : Nat.min s1.length s2.length ≤ s1.length := Nat.min_le_left _ _
      have hm2 : Nat.min s1.length s2.length ≤ s2.length := Nat.min_le_right _ _
      have htake : s1.take (Nat.min s1.length s2.length) =
          s2.take (Nat.min s1.length s2.length) := by
        have h4 := congrArg (List.take (Nat.min s1.length s2.length)) h
        rwa [List.take_append_of_le_length hm1,
             List.take_append_of_le_length hm2] at h4
      have hdrop : s1.drop (Nat.min s1.length s2.length) ++ evalL ls σ =
          s2.drop (Nat.min s1.length s2.length) ++ evalL rs σ := by
        have h4 := congrArg (List.drop (Nat.min s1.length s2.length)) h
        rwa [List.drop_append_of_le_length hm1,
             List.drop_append_of_le_length hm2] at h4
      have h2 : evalL (if Nat.min s1.length s2.length < s1.length then
            E.strLit (s1.drop (Nat.min s1.length s2.length)) :: ls else ls) σ =
          evalL (if Nat.min s1.length s2.length < s2.length then
            E.strLit (s2.drop (Nat.min s1.length s2.length)) :: rs else rs) σ := by
        by_cases e1 : Nat.min s1.length s2.length < s1.length <;>
          by_cases e2 : Nat.min s1.length s2.length < s2.length <;>
          simp only [e1, e2, if_pos, if_neg, if_true, if_false, evalL_cons,
            evalS_strLit]
        · exact hdrop
        · have d2 : s2.drop (Nat.min s1.length s2.length) = [] :=
            List.drop_eq_nil_of_le (by omega)
          rw [d2, List.nil_append] at hdrop
          exact hdrop
        · have d1 : s1.drop (Nat.min s1.length s2.length) = [] :=
            List.drop_eq_nil_of_le (by omega)
          rw [d1, List.nil_append] at hdrop
          exact hdrop
        · have d1 : s1.drop (Nat.min s1.length s2.length) = [] :=
            List.drop_eq_nil_of_le (by omega)
          have d2 : s2.drop (Nat.min s1.length s2.length) = [] :=
            List.drop_eq_nil_of_le (by omega)
          rw [d1, List.nil_append] at hdrop
          rw [d2, List.nil_append] at hdrop
          exact hdrop
      obtain ⟨t, ht, hs⟩ := ih h2
      simp only [dite_eq_ite] at ht
      refine ⟨t, ?_, hs⟩
      rw [reduce_front.eq_8, if_neg hne]
      simp only [htake, ne_eq, not_true_eq_false, if_false, ite_false]
      exact ht
  | case12 l ls r rs eqs hne h1 h2 h3 h4 =>
      refine ⟨(l :: ls, r :: rs, eqs), ?_, h⟩
      simp only [reduce_front]
      rw [if_neg hne]


theorem evalR_cons (e : E) (es : List E) (σ : Assign) :
    evalR (e :: es) σ = (evalS e σ).reverse ++ evalR es σ := rfl

theorem evalR_eq (es : List E) (σ : Assign) :
    evalR es σ = (evalL es.reverse σ).reverse := by
  induction es with
  | nil => rfl
  | cons e es ih =>
      simp [evalR_cons, ih, evalL_append, evalL_cons, evalL_nil,
        List.reverse_append]

theorem cons_eq_dropLast_getLastD (c x : Nat) (s : List Nat) :
    c :: s = (c :: s).dropLast ++ [(c :: s).getLastD x] := by
  induction s generalizing c x with
  | nil => rfl
  | cons d s ih =>
      rw [List.getLastD_cons]
      show c :: d :: s = c :: ((d :: s).dropLast ++ [(d :: s).getLastD c])
      rw [← ih d c]

theorem reduce_back_rev_sound (ls rs : List E) (eqs : List (E × E)) (σ : Assign)
    (h : evalR ls σ = evalR rs σ) :
    ∃ t, reduce_back_rev ls rs eqs = some t ∧ evalR t.1 σ = evalR t.2.1 σ := by
  induction ls, rs, eqs using reduce_back_rev.induct with
  | case1 rs eqs => exact ⟨([], rs, eqs), by simp [reduce_back_rev], h⟩
  | case2 l ls eqs => exact ⟨(l :: ls, [], eqs), by simp [reduce_back_rev], h⟩
  | case3 ls r rs eqs ih =>
      rw [evalR_cons, evalR_cons] at h
      obtain ⟨t, ht, hs⟩ := ih (List.append_cancel_left h)
      exact ⟨t, by cases r <;> simp [reduce_back_rev, ht], hs⟩
  | case4 ls rs eqs a b hd hne =>
      exfalso
      rw [evalR_cons, evalR_cons, evalS_unit, evalS_unit,
          List.reverse_singleton, List.reverse_singleton] at h
      exact are_distinct_asC σ hd (List.head_eq_of_cons_eq h)
  | case5 ls rs eqs a b hd hne ih =>
      rw [evalR_cons, evalR_cons, evalS_unit, evalS_unit,
          List.reverse_singleton, List.reverse_singleton] at h
      obtain ⟨t, ht, hs⟩ := ih (List.tail_eq_of_cons_eq h)
      exact ⟨t, by simp [reduce_back_rev, hne, hd, ht], hs⟩
  | case6 ls rs eqs a hne =>
      exact ⟨(E.unit a :: ls, E.strLit [] :: rs, eqs),
        by simp [reduce_back_rev, hne], h⟩
  | case7 ls rs eqs a c s' hne ih =>
      rw [evalR_cons, evalR_cons, evalS_unit, evalS_strLit,
          List.reverse_singleton] at h
      rw [cons_eq_dropLast_getLastD c 0 s', List.reverse_append,
          List.reverse_singleton] at h
      have h2 : evalR ls σ =
          evalR (if (c :: s').length = 1 then rs
            else E.strLit (c :: s').dropLast :: rs) σ := by
        have h3 := List.tail_eq_of_cons_eq h
        by_cases hs : (c :: s').length = 1
        · have hs' : s' = [] := by cases s' <;> simp_all
          subst hs'
          simpa using h3
        · simp only [hs, if_neg, if_false, evalR_cons, evalS_strLit]
          exact h3
      obtain ⟨t, ht, hs⟩ := ih h2
      simp only [dite_eq_ite] at ht
      refine ⟨t, ?_, hs⟩
      rw [reduce_back_rev.eq_5, if_neg hne]
      exact ht
  | case8 ls rs eqs a hne =>
      exact ⟨(E.strLit [] :: ls, E.unit a :: rs, eqs),
        by simp [reduce_back_rev, hne], h⟩
  | case9 ls rs eqs a c s' hne ih =>
      rw [evalR_cons, evalR_cons, evalS_unit, evalS_strLit,
          List.reverse_singleton] at h
      rw [cons_eq_dropLast_getLastD c 0 s', List.reverse_append,
          List.reverse_singleton] at h
      have h2 : evalR rs σ =
          evalR (if (c :: s').length = 1 then ls
            else E.strLit (c :: s').dropLast :: ls) σ := by
        have h3 := (List.tail_eq_of_cons_eq h).symm
        by_cases hs : (c :: s').length = 1
        · have hs' : s' = [] := by cases s' <;> simp_all
          subst hs'
          simpa using h3
        · simp only [hs, if_neg, if_false, evalR_cons, evalS_strLit]
          exact h3
      obtain ⟨t, ht, hs⟩ := ih h2
      simp only [dite_eq_ite] at ht
      refine ⟨t, ?_, hs⟩
      rw [reduce_back_rev.eq_7, if_neg hne]
      exact ht
  | case10 ls rs eqs s1 s2 m hmm hne =>
      exfalso
      rw [evalR_cons, evalR_cons, evalS_strLit, evalS_strLit] at h
      have hm1 : Nat.min s1.length s2.length ≤ s1.reverse.length := by
        simp [Nat.min_le_left]
      have hm2 : Nat.min s1.length s2.length ≤ s2.reverse.length := by
        simp [Nat.min_le_right]
      have h4 := congrArg (List.take (Nat.min s1.length s2.length)) h
      rw [List.take_append_of_le_length hm1,
          List.take_append_of_le_length hm2] at h4
      exact hmm h4
  | case11 ls rs eqs s1 s2 m hmm hne ih =>
      rw [evalR_cons, evalR_cons, evalS_strLit, evalS_strLit] at h
      have hm1 : Nat.min s1.length s2.length ≤ s1.reverse.length := by
        simp [Nat.min_le_left]
      have hm2 : Nat.min s1.length s2.length ≤ s2.reverse.length := by
        simp [Nat.min_le_right]
      have hb1 : Nat.min s1.length s2.length ≤ s1.length := Nat.min_le_left _ _
      have hb2 : Nat.min s1.length s2.length ≤ s2.length := Nat.min_le_right _ _
      have hdrop : s1.reverse.drop (Nat.min s1.length s2.length) ++ evalR ls σ =
          s2.reverse.drop (Nat.min s1.length s2.length) ++ evalR rs σ := by
        have h4 := congrArg (List.drop (Nat.min s1.length s2.length)) h
        rwa [List.drop_append_of_le_length hm1,
             List.drop_append_of_le_length hm2] at h4
      have hrd1 : (s1.take (s1.length - Nat.min s1.length s2.length)).reverse =
          s1.reverse.drop (Nat.min s1.length s2.length) := by
        rw [List.reverse_take]
        congr 1
        omega
      have hrd2 : (s2.take (s2.length - Nat.min s1.length s2.length)).reverse =
          s2.reverse.drop (Nat.min s1.length s2.length) := by
        rw [List.reverse_take]
        congr 1
        omega
      have h2 : evalR (if Nat.min s1.length s2.length < s1.length then
            E.strLit (s1.take (s1.length - Nat.min s1.length s2.length)) :: ls
            else ls) σ =
          evalR (if Nat.min s1.length s2.length < s2.length then
            E.strLit (s2.take (s2.length - Nat.min s1.length s2.length)) :: rs
            else rs) σ := by
        by_cases e1 : Nat.min s1.length s2.length < s1.length <;>
          by_cases e2 : Nat.min s1.length s2.length < s2.length <;>
          simp only [e1, e2, if_pos, if_neg, if_true, if_false, evalR_cons,
            evalS_strLit]
        · rw [hrd1, hrd2]
          exact hdrop
        · rw [hrd1]
          have d2 : s2.reverse.drop (Nat.min s1.length s2.length) = [] :=
            List.drop_eq_nil_of_le (by simp only [List.length_reverse]; omega)
          rw [d2, List.nil_append] at hdrop
          exact hdrop
        · rw [hrd2]
          have d1 : s1.reverse.drop (Nat.min s1.length s2.length) = [] :=
            List.drop_eq_nil_of_le (by simp only [List.length_reverse]; omega)
          rw [d1, List.nil_append] at hdrop
          exact hdrop
        · have d1 : s1.reverse.drop (Nat.min s1.length s2.length) = [] :=
            List.drop_eq_nil_of_le (by simp only [List.length_reverse]; omega)
          have d2 : s2.reverse.drop (Nat.min s1.length s2.length) = [] :=
            List.drop_eq_nil_of_le (by simp only [List.length_reverse]; omega)
          rw [d1, List.nil_append] at hdrop
          rw [d2, List.nil_append] at hdrop
          exact hdrop
      obtain ⟨t, ht, hs⟩ := ih h2
      simp only [dite_eq_ite] at ht
      refine ⟨t, ?_, hs⟩
      rw [reduce_back_rev.eq_8, if_neg hne]
      have hq : List.take (s1.length.min s2.length) s1.reverse =
          List.take (s1.length.min s2.length) s2.reverse := not_not.mp hmm
      simp only [hq, ne_eq, not_true_eq_false, if_false, ite_false]
      exact ht
  | case12 l ls r rs eqs hne h1 h2 h3 h4 =>
      refine ⟨(l :: ls, r :: rs, eqs), ?_, h⟩
      simp only [reduce_back_rev]
      rw [if_neg hne]

theorem reduce_back_sound (ls rs : List E) (eqs : List (E × E)) (σ : Assign)
    (h : evalL ls σ = evalL rs σ) :
    ∃ t, reduce_back ls rs eqs = some t ∧ evalL t.1 σ = evalL t.2.1 σ := by
  have h' : evalR ls.reverse σ = evalR rs.reverse σ := by
    rw [evalR_eq, evalR_eq, List.reverse_reverse, List.reverse_reverse, h]
  obtain ⟨t, ht, hs⟩ := reduce_back_rev_sound ls.reverse rs.reverse eqs σ h'
  refine ⟨(t.1.reverse, t.2.1.reverse, t.2.2), ?_, ?_⟩
  · simp [reduce_back, ht]
  · have e1 : evalL t.1.reverse σ = (evalR t.1 σ).reverse := by
      rw [evalR_eq, List.reverse_reverse]
    have e2 : evalL t.2.1.reverse σ = (evalR t.2.1 σ).reverse := by
      rw [evalR_eq, List.reverse_reverse]
    rw [e1, e2, hs]

theorem decimal_digits_ne_nil (n : Nat) : decimal_digits n ≠ [] := by
  induction n using decimal_digits.induct with
  | case1 n h =>
      rw [decimal_digits, dif_pos h]
      simp
  | case2 n h ih =>
      rw [decimal_digits, dif_neg h]
      simp

theorem decimal_digits_all (n : Nat) :
    (decimal_digits n).all is_digit_code = true := by
  induction n using decimal_digits.induct with
  | case1 n h =>
      rw [decimal_digits, dif_pos h]
      simp only [List.all_cons, List.all_nil, Bool.and_true, is_digit_code,
        Bool.and_eq_true, decide_eq_true_eq]
      omega
  | case2 n h ih =>
      rw [decimal_digits, dif_neg h]
      simp only [List.all_append, List.all_cons, List.all_nil, Bool.and_true,
        ih, Bool.true_and, is_digit_code, Bool.and_eq_true, decide_eq_true_eq]
      omega

theorem decimal_digits_head_pos (n : Nat) :
    1 ≤ n → (decimal_digits n).head? ≠ some 48 := by
  induction n using decimal_digits.induct with
  | case1 n h =>
      intro hn hc
      simp [decimal_digits, h] at hc
      omega
  | case2 n h ih =>
      intro hn hc
      have hne := decimal_digits_ne_nil (n / 10)
      rw [decimal_digits] at hc
      rw [dif_neg h] at hc
      rcases hd : decimal_digits (n / 10) with _ | ⟨x, xs⟩
      · exact hne hd
      · rw [hd] at hc
        simp only [List.cons_append, List.head?_cons] at hc
        apply ih (by omega)
        rw [hd]
        simpa using hc

theorem itos_val_all_digits (k : Int) :
    (itos_val k).all is_digit_code = true := by
  unfold itos_val
  split
  · exact decimal_digits_all _
  · rfl

theorem itos_val_no_leading (k : Int) :
    ¬(1 < (itos_val k).length ∧ (itos_val k).head? = some 48) := by
  unfold itos_val
  split
  · rintro ⟨h1, h2⟩
    by_cases h0 : k.toNat = 0
    · rw [h0] at h1
      simp [decimal_digits] at h1
    · exact decimal_digits_head_pos k.toNat (by omega) h2
  · rintro ⟨h1, _⟩
    simp at h1

theorem as_string_list_evalL (es : List E) (σ : Assign) :
    ∀ s, as_string_list es = some s → evalL es σ = s := by
  induction es using as_string_list.induct with
  | case1 =>
      intro s h
      simp [as_string_list] at h
      subst h
      rfl
  | case2 str es ih =>
      intro s h
      simp only [as_string_list, Option.map_eq_some'] at h
      obtain ⟨s', h1, h2⟩ := h
      rw [evalL_cons, evalS_strLit, ih s' h1]
      exact h2
  | case3 c es ih =>
      intro s h
      simp only [as_string_list, Option.map_eq_some'] at h
      obtain ⟨s', h1, h2⟩ := h
      rw [evalL_cons, evalS_unit, ih s' h1]
      exact h2
  | case4 es h1 h2 h3 =>
      intro s h
      simp [as_string_list] at h

theorem reduce_itos_sound (ls rs : List E) (eqs : List (E × E)) (σ : Assign)
    (h : evalL ls σ = evalL rs σ) :
    ∃ t, reduce_itos ls rs eqs = some t ∧ evalL t.1 σ = evalL t.2.1 σ := by
  unfold reduce_itos
  split
  · rename_i n s heq
    have hs : itos_val (eval σ n).asI = s := by
      have h1 := as_string_list_evalL rs σ s heq
      rw [← h1, ← h]
      simp [evalL_cons, evalL_nil, evalS, eval, Val.asS]
    have hall : s.all is_digit_code = true := hs ▸ itos_val_all_digits _
    have hnl : ¬(1 < s.length ∧ s.head? = some 48) :=
      hs ▸ itos_val_no_leading _
    rw [if_neg (by simp [hall]), if_neg hnl]
    by_cases hc : s = decimal_digits (digits_to_nat s)
    · refine ⟨([], [], eqs ++ [(n, .intVal (digits_to_nat s : Int))]), ?_, rfl⟩
      exact if_pos hc
    · refine ⟨([.itos n], rs, eqs), ?_, by simpa using h⟩
      exact if_neg hc
  · exact ⟨_, rfl, h⟩

theorem unit_value_eval {e : E} (σ : Assign) (h : is_unit_value e = true) :
    evalS e σ = [unit_char e] := by
  cases e with
  | unit a =>
      cases a <;> simp_all [is_unit_value, unit_char, evalS, eval, Val.asC, Val.asS]
  | _ => simp_all [is_unit_value]

theorem unit_value_inj {e r : E} (he : is_unit_value e = true)
    (hr : is_unit_value r = true) (hc : unit_char e = unit_char r) : e = r := by
  cases e with
  | unit a =>
      cases a <;> cases r <;> simp_all [is_unit_value, unit_char] <;>
        (rename_i b; cases b <;> simp_all [is_unit_value, unit_char])
  | _ => simp_all [is_unit_value]

theorem vc_loop_spec : ∀ (rs es es' : List E),
    vc_loop rs es = some es' →
    ∃ matched skipped : Multiset E,
      (es : Multiset E) = matched + (es' : Multiset E) ∧
      (rs : Multiset E) = matched + skipped ∧
      ∀ r ∈ skipped, is_unit_value r = true ∧ r ∉ es' := by
  intro rs
  induction rs with
  | nil =>
      intro es es' h
      simp [vc_loop] at h
      subst h
      exact ⟨0, 0, by simp, by simp, by simp⟩
  | cons r rs ih =>
      intro es es' h
      rw [vc_loop] at h
      by_cases hc : es.contains r
      · rw [if_pos hc] at h
        obtain ⟨matched, skipped, h1, h2, h3⟩ := ih (es.erase r) es' h
        refine ⟨r ::ₘ matched, skipped, ?_, ?_, h3⟩
        · have hmem : r ∈ es := by simpa using hc
          have hperm : es.Perm (r :: es.erase r) := List.perm_cons_erase hmem
          calc (es : Multiset E) = ((r :: es.erase r : List E) : Multiset E) :=
                Quot.sound hperm
          _ = r ::ₘ ((es.erase r : List E) : Multiset E) := rfl
          _ = r ::ₘ (matched + (es' : Multiset E)) := by rw [h1]
          _ = (r ::ₘ matched) + (es' : Multiset E) := by rw [Multiset.cons_add]
        · show r ::ₘ (rs : Multiset E) = (r ::ₘ matched) + skipped
          rw [h2, Multiset.cons_add]
      · rw [if_neg hc] at h
        by_cases hu : is_unit_value r = true
        · rw [if_pos hu] at h
          obtain ⟨matched, skipped, h1, h2, h3⟩ := ih es es' h
          refine ⟨matched, r ::ₘ skipped, h1, ?_, ?_⟩
          · show r ::ₘ (rs : Multiset E) = matched + (r ::ₘ skipped)
            rw [h2, Multiset.add_cons]
          · intro x hx
            rcases Multiset.mem_cons.mp hx with rfl | hx'
            · refine ⟨hu, fun hmem => ?_⟩
              have : x ∈ (es : Multiset E) := by
                rw [h1]
                exact Multiset.mem_add.mpr (Or.inr (by simpa using hmem))
              exact absurd (by simpa using this) (by simpa using hc)
            · exact h3 x hx'
        · rw [if_neg hu] at h
          exact absurd h (by simp)

theorem evalL_multiset (es : List E) (σ : Assign) :
    ((evalL es σ : List Nat) : Multiset Nat) =
      ((es : Multiset E).map fun e => ((evalS e σ : List Nat) : Multiset Nat)).sum := by
  induction es with
  | nil => rfl
  | cons e es ih =>
      rw [evalL_cons]
      have hsplit : ((evalS e σ ++ evalL es σ : List Nat) : Multiset Nat) =
          ((evalS e σ : List Nat) : Multiset Nat) +
            ((evalL es σ : List Nat) : Multiset Nat) := rfl
      rw [hsplit, ih,
        show ((e :: es : List E) : Multiset E) = e ::ₘ (es : Multiset E) from rfl,
        Multiset.map_cons, Multiset.sum_cons]

theorem units_map_sum (m : Multiset E) (σ : Assign)
    (hu : ∀ e ∈ m, is_unit_value e = true) :
    (m.map fun e => ((evalS e σ : List Nat) : Multiset Nat)).sum =
      m.map unit_char := by
  induction m using Multiset.induction_on with
  | empty => rfl
  | cons a s ih =>
      rw [Multiset.map_cons, Multiset.sum_cons, Multiset.map_cons,
        ih (fun e he => hu e (Multiset.mem_cons_of_mem he)),
        unit_value_eval σ (hu a (Multiset.mem_cons_self a s))]
      rfl

theorem reduce_value_clash_sound (ls rs : List E) (eqs : List (E × E))
    (σ : Assign) (h : evalL ls σ = evalL rs σ) :
    ∃ t, reduce_value_clash ls rs eqs = some t ∧
      evalL t.1 σ = evalL t.2.1 σ := by
  unfold reduce_value_clash
  by_cases h0 : ls.isEmpty ∨ rs.isEmpty
  · rw [if_pos h0]
    exact ⟨_, rfl, h⟩
  · rw [if_neg h0]
    split
    · exact ⟨_, rfl, h⟩
    · rename_i es hv
      by_cases he : es.isEmpty
      · rw [if_pos he]
        exact ⟨_, rfl, h⟩
      · rw [if_neg he]
        by_cases ha : es.all is_unit_value = true
        · exfalso
          obtain ⟨matched, skipped, h1, h2, h3⟩ := vc_loop_spec rs ls es hv
          have hm : ((evalL ls σ : List Nat) : Multiset Nat) =
              ((evalL rs σ : List Nat) : Multiset Nat) := by rw [h]
          rw [evalL_multiset, evalL_multiset, h1, h2, Multiset.map_add,
            Multiset.map_add, Multiset.sum_add, Multiset.sum_add] at hm
          have hcan :
              (((es : List E) : Multiset E).map fun e =>
                  ((evalS e σ : List Nat) : Multiset Nat)).sum =
              (skipped.map fun e =>
                  ((evalS e σ : List Nat) : Multiset Nat)).sum :=
            add_left_cancel hm
          have hes : ∀ e ∈ ((es : List E) : Multiset E), is_unit_value e = true := by
            intro e hee
            exact List.all_eq_true.mp ha e (by simpa using hee)
          have hsk : ∀ e ∈ skipped, is_unit_value e = true :=
            fun r hr => (h3 r hr).1
          rw [units_map_sum _ σ hes, units_map_sum _ σ hsk] at hcan
          have hne : es ≠ [] := by simpa [List.isEmpty_iff] using he
          obtain ⟨e, hee⟩ := List.exists_mem_of_ne_nil es hne
          have hmm : unit_char e ∈ skipped.map unit_char := by
            rw [← hcan]
            exact Multiset.mem_map_of_mem _ (by simpa using hee)
          obtain ⟨r, hr, hre⟩ := Multiset.mem_map.mp hmm
          have her : e = r :=
            unit_value_inj (hes e (by simpa using hee)) (hsk r hr) hre.symm
          exact (h3 r hr).2 (her ▸ hee)
        · rw [if_neg ha]
          exact ⟨_, rfl, h⟩

theorem min_length_le (e : E) (σ : Assign) :
    (min_length e).2 ≤ (evalS e σ).length := by
  induction e with
  | unit a ih => simp [min_length, evalS, eval, Val.asS]
  | strLit s => simp [min_length, evalS, eval, Val.asS]
  | concat a b iha ihb =>
      have h := Nat.add_le_add iha ihb
      simpa [min_length, evalS, eval, Val.asS] using h
  | ite c t f ihc iht ihf =>
      simp only [min_length, evalS, eval]
      cases h : (eval σ c).asB <;> simp only [if_pos, if_neg, Bool.false_eq_true,
        if_false, if_true]
      · exact le_trans (Nat.min_le_right _ _) ihf
      · exact le_trans (Nat.min_le_left _ _) iht
  | _ => simp [min_length]

theorem max_length_le (e : E) (σ : Assign)
    (h : (max_length e).1 = true) : (evalS e σ).length ≤ (max_length e).2 := by
  induction e with
  | unit a ih => simp [max_length, evalS, eval, Val.asS]
  | seqAt s i ihs ihi =>
      simp only [max_length, evalS, eval, Val.asS]
      split <;> simp
  | strLit s => simp [max_length, evalS, eval, Val.asS]
  | extract s i l ihs ihi ihl =>
      cases l with
      | intVal n =>
          simp only [max_length] at h ⊢
          by_cases hn : n < 0
          · simp [hn] at h
          · simp only [hn, if_false, if_neg]
            simp only [evalS, eval, Val.asS]
            split
            · have := List.length_take_le n.toNat (((eval σ s).asS).drop (eval σ (.intVal n)).asI.toNat)
              simp only [eval, Val.asI] at *
              exact le_trans (List.length_take_le _ _) (le_refl _)
            · simp
      | _ => simp [max_length] at h
  | concat a b iha ihb =>
      simp only [max_length, Bool.and_eq_true] at h
      have := Nat.add_le_add (iha h.1) (ihb h.2)
      simpa [max_length, evalS, eval, Val.asS] using this
  | _ => simp [max_length] at h

/-- C5: Length-analyzer soundness: for every sequence term `e` and every
assignment, `min_length(e)` is at most the length of the denoted
sequence, and when `max_length(e)` reports bounded its value is at least
that length (an unbounded answer is read as ∞). -/
theorem evalL_length (es : List E) (σ : Assign) :
    (evalL es σ).length = (es.map fun y => (evalS y σ).length).sum := by
  induction es with
  | nil => rfl
  | cons e es ih =>
      rw [evalL_cons, List.length_append, ih, List.map_cons, List.sum_cons]

theorem sum_getD_range (rs : List E) (σ : Assign) :
    ((List.range rs.length).map fun j =>
        (evalS (rs.getD j .btrue) σ).length).sum =
      (rs.map fun y => (evalS y σ).length).sum := by
  induction rs with
  | nil => rfl
  | cons y ys ih =>
      rw [List.length_cons, List.range_succ_eq_map, List.map_cons,
        List.map_map, List.sum_cons, List.map_cons, List.sum_cons]
      congr 1

theorem is_unit_length {x : E} (σ : Assign) (h : is_unit x = true) :
    (evalS x σ).length = 1 := by
  cases x <;> simp_all [is_unit, evalS, eval, Val.asS]

theorem sum_sublist_zero {f : Nat → Nat} {used : List Nat} {n : Nat}
    (hnd : used.Nodup) (hss : ∀ j ∈ used, j < n)
    (heq : ((List.range n).map f).sum = (used.map f).sum) :
    ∀ k, k < n → k ∉ used → f k = 0 := by
  intro k hk hku
  have hsub : used.Subperm (List.range n) :=
    List.Nodup.subperm hnd (fun j hj => List.mem_range.mpr (hss j hj))
  have hle : (used : Multiset Nat) ≤ (List.range n : List Nat) :=
    Multiset.coe_le.mpr hsub
  set R : Multiset Nat := ((List.range n : List Nat) : Multiset Nat) with hR
  set U : Multiset Nat := ((used : List Nat) : Multiset Nat) with hU
  have hsplit : R - U + U = R := tsub_add_cancel_of_le hle
  have hsum : (R.map f).sum = ((R - U).map f).sum + (U.map f).sum := by
    conv_lhs => rw [← hsplit]
    rw [Multiset.map_add, Multiset.sum_add]
  have hRsum : (R.map f).sum = ((List.range n).map f).sum := by
    rw [hR, Multiset.map_coe, Multiset.sum_coe]
  have hUsum : (U.map f).sum = (used.map f).sum := by
    rw [hU, Multiset.map_coe, Multiset.sum_coe]
  have hzero : ((R - U).map f).sum = 0 := by
    have := hsum
    rw [hRsum, hUsum, heq] at this
    omega
  have hkmem : k ∈ R - U := by
    rw [← Multiset.count_pos, Multiset.count_sub]
    have hcR : Multiset.count k R = 1 := by
      rw [hR, Multiset.coe_count]
      exact List.count_eq_one_of_mem (List.nodup_range n)
        (List.mem_range.mpr hk)
    have hcU : Multiset.count k U = 0 := by
      rw [hU, Multiset.coe_count]
      exact List.count_eq_zero_of_not_mem hku
    omega
  exact Multiset.sum_eq_zero_iff.mp hzero (f k)
    (Multiset.mem_map.mpr ⟨k, hkmem, rfl⟩)

theorem find_match_spec {x : E} {rs : List E} {used : List Nat} {j : Nat}
    (h : find_match x rs used = some j) :
    j < rs.length ∧ j ∉ used ∧
      (x = rs.getD j .btrue ∨
        (is_unit x = true ∧ is_unit (rs.getD j .btrue) = true)) := by
  unfold find_match at h
  have hp := List.find?_some h
  have hm := List.mem_of_find?_eq_some h
  simp only [decide_eq_true_eq] at hp
  exact ⟨List.mem_range.mp hm, hp.1, hp.2⟩

theorem subseq_marks_spec (rs : List E) (σ : Assign) :
    ∀ (xs : List E) (used0 used : List Nat),
      subseq_marks xs rs used0 = some used →
      ∃ new : List Nat, used = used0 ++ new ∧
        (evalL xs σ).length =
          (new.map fun j => (evalS (rs.getD j .btrue) σ).length).sum ∧
        new.Nodup ∧ ∀ j ∈ new, j < rs.length ∧ j ∉ used0 := by
  intro xs
  induction xs with
  | nil =>
      intro used0 used h
      rw [subseq_marks] at h
      cases h
      exact ⟨[], by simp, by simp [evalL_nil], List.nodup_nil, by simp⟩
  | cons x xs ih =>
      intro used0 used h
      rw [subseq_marks] at h
      rcases hf : find_match x rs used0 with _ | j
      · rw [hf] at h
        exact absurd h (by simp)
      · rw [hf] at h
        obtain ⟨hj1, hj2, hj3⟩ := find_match_spec hf
        obtain ⟨new, hu, hlen, hnd, hall⟩ := ih (used0 ++ [j]) used h
        refine ⟨j :: new, ?_, ?_, ?_, ?_⟩
        · rw [hu, List.append_assoc]
          rfl
        · rw [evalL_cons, List.length_append, hlen, List.map_cons,
            List.sum_cons]
          congr 1
          rcases hj3 with he | ⟨hux, hur⟩
          · rw [he]
          · rw [is_unit_length σ hux, is_unit_length σ hur]
        · refine List.nodup_cons.mpr ⟨?_, hnd⟩
          intro hjn
          exact (hall j hjn).2 (by simp)
        · intro j' hj'
          rcases List.mem_cons.mp hj' with rfl | hj''
          · exact ⟨hj1, hj2⟩
          · obtain ⟨a, b⟩ := hall j' hj''
            exact ⟨a, fun hmem => b (List.mem_append_left _ hmem)⟩

theorem subseq_drop_total (used : List Nat) (σ : Assign) :
    ∀ (ys : List E) (i : Nat),
      (∀ k, k < ys.length → (i + k) ∉ used →
        (evalS (ys.getD k .btrue) σ).length = 0) →
      ∃ r, subseq_drop i ys used = some r := by
  intro ys
  induction ys with
  | nil => intro i _; exact ⟨([], []), rfl⟩
  | cons y ys ih =>
      intro i h
      have hshift : ∀ k, k < ys.length → (i + 1 + k) ∉ used →
          (evalS (ys.getD k .btrue) σ).length = 0 := by
        intro k hk hnk
        have h2 := h (k + 1) (by simpa using Nat.succ_lt_succ hk)
          (by
            have he : i + (k + 1) = i + 1 + k := by omega
            rw [he]
            exact hnk)
        simpa using h2
      rw [subseq_drop]
      by_cases hm : i ∈ used
      · rw [if_pos hm]
        obtain ⟨r, hr⟩ := ih (i + 1) hshift
        rw [hr]
        exact ⟨_, rfl⟩
      · rw [if_neg hm]
        have h0 : (evalS y σ).length = 0 := by
          have := h 0 (by simp) (by simpa using hm)
          simpa using this
        have hml := min_length_le y σ
        have hse : ∃ q, set_empty_all y = some q := by
          simp only [set_empty_all]
          rw [if_neg (by omega)]
          by_cases hq : ((min_length y).1 = true ∧ (min_length y).2 = 0)
          · rw [if_pos hq]
            exact ⟨_, rfl⟩
          · rw [if_neg hq]
            exact ⟨_, rfl⟩
        obtain ⟨q, hq⟩ := hse
        rw [hq]
        obtain ⟨r, hr⟩ := ih (i + 1) hshift
        rw [hr]
        exact ⟨_, rfl⟩

theorem subseq_drop_nil_used :
    ∀ (ys : List E) (i : Nat) (r : List E × List (E × E)),
      subseq_drop i ys [] = some r → r.1 = [] := by
  intro ys
  induction ys with
  | nil =>
      intro i r h
      rw [subseq_drop] at h
      cases h
      rfl
  | cons y ys ih =>
      intro i r h
      rw [subseq_drop] at h
      rw [if_neg (List.not_mem_nil i)] at h
      rcases hs : set_empty_all y with _ | q
      · rw [hs] at h
        exact absurd h (by simp)
      · rw [hs] at h
        rcases hd : subseq_drop (i + 1) ys [] with _ | r'
        · rw [hd] at h
          exact absurd h (by simp)
        · rw [hd] at h
          simp only [Option.map_some'] at h
          cases h
          exact ih (i + 1) r' hd

theorem reduce_subsequence_swap (ls0 rs0 : List E) (eqs : List (E × E))
    (hsw : rs0.length < ls0.length) :
    reduce_subsequence ls0 rs0 eqs = reduce_subsequence rs0 ls0 eqs := by
  unfold reduce_subsequence
  have h2 : ¬(ls0.length < rs0.length) := by omega
  simp only [hsw, h2, if_true, if_false]

theorem reduce_subsequence_noswap_sound (ls rs : List E) (eqs : List (E × E))
    (σ : Assign) (hsw : ¬ rs.length < ls.length)
    (h : evalL ls σ = evalL rs σ) :
    ∃ t, reduce_subsequence ls rs eqs = some t ∧
      evalL t.1 σ = evalL t.2.1 σ := by
  unfold reduce_subsequence
  simp only [hsw, if_false]
  by_cases h1 : ls.length = rs.length
  · rw [if_pos h1]
    exact ⟨_, rfl, h⟩
  · rw [if_neg h1]
    by_cases h2 : (ls.isEmpty = true ∧ rs.length = 1)
    · rw [if_pos h2]
      exact ⟨_, rfl, h⟩
    · rw [if_neg h2]
      rcases hm : subseq_marks ls rs [] with _ | used
      · exact ⟨_, rfl, h⟩
      · obtain ⟨new, hu, hlen, hnd, hall⟩ := subseq_marks_spec rs σ ls [] used hm
        rw [List.nil_append] at hu
        subst hu
        have hz : ∀ k, k < rs.length → k ∉ used →
            (evalS (rs.getD k .btrue) σ).length = 0 := by
          apply sum_sublist_zero hnd (fun j hj => (hall j hj).1)
          calc ((List.range rs.length).map fun j =>
              (evalS (rs.getD j .btrue) σ).length).sum
              = (rs.map fun y => (evalS y σ).length).sum := sum_getD_range rs σ
            _ = (evalL rs σ).length := (evalL_length rs σ).symm
            _ = (evalL ls σ).length := by rw [h]
            _ = (used.map fun j => (evalS (rs.getD j .btrue) σ).length).sum :=
                hlen
        obtain ⟨r, hr⟩ := subseq_drop_total used σ rs 0 (by
          intro k hk hnk
          exact hz k hk (by simpa using hnk))
        rcases hd : subseq_drop 0 rs used with _ | ⟨kept, qs⟩
        · rw [hd] at hr
          exact Option.noConfusion hr
        · simp only [hd]
          by_cases h3 : kept.length = rs.length
          · rw [if_pos h3]
            exact ⟨_, rfl, h⟩
          · rw [if_neg h3]
            by_cases h4 : ls.isEmpty = true
            · rw [if_pos h4]
              have hls : ls = [] := by simpa [List.isEmpty_iff] using h4
              subst hls
              have hnew : used = [] := by
                rw [subseq_marks] at hm
                cases hm
                rfl
              subst hnew
              have hk := subseq_drop_nil_used rs 0 (kept, qs) hd
              simp only at hk
              subst hk
              exact ⟨_, rfl, rfl⟩
            · rw [if_neg h4]
              exact ⟨_, rfl, rfl⟩

theorem reduce_subsequence_sound (ls0 rs0 : List E) (eqs : List (E × E))
    (σ : Assign) (h : evalL ls0 σ = evalL rs0 σ) :
    ∃ t, reduce_subsequence ls0 rs0 eqs = some t ∧
      evalL t.1 σ = evalL t.2.1 σ := by
  by_cases hsw : rs0.length < ls0.length
  · rw [reduce_subsequence_swap ls0 rs0 eqs hsw]
    exact reduce_subsequence_noswap_sound rs0 ls0 eqs σ (by omega) h.symm
  · exact reduce_subsequence_noswap_sound ls0 rs0 eqs σ hsw h

theorem unit_elem_eval {x : E} (σ : Assign) (h : is_unit x = true) :
    evalS x σ = [(evalS x σ).getD 0 0] := by
  cases x <;> simp_all [is_unit, evalS, eval, Val.asS]

theorem unit_list_eval {q : List E} (σ : Assign)
    (h : ∀ x ∈ q, is_unit x = true) :
    evalL q σ = q.map fun x => (evalS x σ).getD 0 0 := by
  induction q with
  | nil => rfl
  | cons x q ih =>
      rw [evalL_cons, List.map_cons,
        ih (fun y hy => h y (List.mem_cons_of_mem x hy))]
      conv_lhs => rw [unit_elem_eval σ (h x (List.mem_cons_self x q))]
      rfl

theorem getD_map_lt (σ : Assign) (l : List E) (n : Nat) (hn : n < l.length) :
    ((l.map fun x => (evalS x σ).getD 0 0).getD n 0) =
      (evalS (l.getD n .btrue) σ).getD 0 0 := by
  rw [List.getD_eq_getElem _ _ (by simpa using hn),
    List.getD_eq_getElem _ _ hn, List.getElem_map]

theorem unit_runs_spec :
    ∀ (xs acc : List E) (p : List E), p ∈ unit_runs xs acc →
      (∀ x ∈ acc, is_unit x = true) →
      (∀ x ∈ p, is_unit x = true) ∧ p ≠ [] ∧
        ∃ pre post, acc ++ xs = pre ++ p ++ post := by
  intro xs
  induction xs with
  | nil =>
      intro acc p hp hacc
      rw [unit_runs] at hp
      by_cases he : acc.isEmpty = true
      · rw [if_pos he] at hp
        exact absurd hp (List.not_mem_nil p)
      · rw [if_neg he] at hp
        have hpe : p = acc := by simpa using hp
        subst hpe
        refine ⟨hacc, by simpa [List.isEmpty_iff] using he, [], [], by simp⟩
  | cons x xs ih =>
      intro acc p hp hacc
      rw [unit_runs] at hp
      by_cases hu : is_unit x = true
      · rw [if_pos hu] at hp
        have hacc' : ∀ y ∈ acc ++ [x], is_unit y = true := by
          intro y hy
          rcases List.mem_append.mp hy with hy' | hy'
          · exact hacc y hy'
          · rw [List.mem_singleton.mp hy']
            exact hu
        obtain ⟨h1, h2, pre, post, h3⟩ := ih (acc ++ [x]) p hp hacc'
        refine ⟨h1, h2, pre, post, ?_⟩
        rw [← h3, List.append_assoc]
        rfl
      · rw [if_neg hu] at hp
        by_cases he : acc.isEmpty = true
        · rw [if_pos he] at hp
          have hae : acc = [] := by simpa [List.isEmpty_iff] using he
          subst hae
          obtain ⟨h1, h2, pre, post, h3⟩ := ih [] p hp (by simp)
          refine ⟨h1, h2, x :: pre, post, ?_⟩
          rw [List.nil_append] at h3 ⊢
          rw [h3]
          rfl
        · rw [if_neg he] at hp
          rcases List.mem_cons.mp hp with rfl | hp'
          · exact ⟨hacc, by simpa [List.isEmpty_iff] using he, [],
              x :: xs, by simp⟩
          · obtain ⟨h1, h2, pre, post, h3⟩ := ih [] p hp' (by simp)
            refine ⟨h1, h2, acc ++ x :: pre, post, ?_⟩
            rw [List.nil_append] at h3
            rw [h3]
            simp

theorem can_overlap_go_false (p1 p2 : List E) (start2 : Nat) :
    ∀ (cnt i : Nat), can_overlap_u_go p1 p2 start2 i cnt = false →
      ∃ k, k < cnt ∧
        are_distinct (p1.getD (i + k) .btrue)
          (p2.getD (start2 + (i + k)) .btrue) = true := by
  intro cnt
  induction cnt with
  | zero =>
      intro i h
      rw [can_overlap_u_go] at h
      exact absurd h (by simp)
  | succ cnt ih =>
      intro i h
      rw [can_overlap_u_go] at h
      by_cases hd : are_distinct (p1.getD i .btrue)
          (p2.getD (start2 + i) .btrue) = true
      · exact ⟨0, by omega, by simpa using hd⟩
      · rw [if_neg hd] at h
        by_cases he : ¬ are_equal (p1.getD i .btrue)
            (p2.getD (start2 + i) .btrue) = true
        · rw [if_pos he] at h
          exact absurd h (by simp)
        · rw [if_neg he] at h
          obtain ⟨k, hk, hkd⟩ := ih (i + 1) h
          refine ⟨k + 1, by omega, ?_⟩
          have e1 : i + (k + 1) = i + 1 + k := by omega
          rw [e1]
          exact hkd

theorem getD_mem_of_lt {l : List E} {n : Nat} (hn : n < l.length) :
    l.getD n .btrue ∈ l := by
  rw [List.getD_eq_getElem _ _ hn]
  exact List.getElem_mem hn

theorem non_overlap_core_contra (p rs : List E) (σ : Assign) (d : Nat)
    (hpu : ∀ x ∈ p, is_unit x = true) (hru : ∀ x ∈ rs, is_unit x = true)
    (hpne : p ≠ []) (hd : d + p.length ≤ rs.length)
    (halign : ∀ k, k < p.length →
      (evalS (p.getD k .btrue) σ).getD 0 0 =
        (evalS (rs.getD (d + k) .btrue) σ).getD 0 0)
    (hno : non_overlap_u_core p rs = true) : False := by
  have hp1 : 1 ≤ p.length := by
    cases p
    · exact absurd rfl hpne
    · simp
  have hr1 : 1 ≤ rs.length := by omega
  simp only [non_overlap_u_core] at hno
  rw [if_neg (by omega)] at hno
  -- a distinct pair at an aligned offset is absurd
  have key : ∀ j, j + p.length ≤ rs.length →
      can_overlap_u_go p rs j 0 p.length = false → j = d → False := by
    intro j hj hscan hjd
    subst hjd
    obtain ⟨k, hk, hkd⟩ := can_overlap_go_false p rs j p.length 0 hscan
    rw [Nat.zero_add] at hkd
    have hpk : is_unit (p.getD k .btrue) = true :=
      hpu _ (getD_mem_of_lt hk)
    have hrk : is_unit (rs.getD (j + k) .btrue) = true :=
      hru _ (getD_mem_of_lt (by omega))
    have hne := are_distinct_evalS σ hkd hpk hrk
    apply hne
    rw [unit_elem_eval σ hpk, unit_elem_eval σ hrk]
    rw [halign k hk]
  split at hno
  · rename_i s1 s2
    have : is_unit (E.strLit s1) = true := hpu _ (by simp)
    simp [is_unit] at this
  · rw [if_neg (by
      rintro (hany | hany) <;>
        · obtain ⟨y, hy, hyn⟩ := List.any_eq_true.mp hany
          simp only [decide_eq_true_eq] at hyn
          first
            | exact hyn (hpu y hy)
            | exact hyn (hru y hy))] at hno
    simp only [Bool.and_eq_true] at hno
    obtain ⟨⟨hl1, hl2⟩, hl3⟩ := hno
    by_cases hcase : d + p.length < rs.length
    · have hj := List.all_eq_true.mp hl2 d (by
        simp only [List.mem_range]
        omega)
      simp only [decide_eq_true_eq] at hj
      rcases hj with hj | hj
      · exact hj hcase
      · apply key d (by omega) ?_ rfl
        have : can_overlap_u p rs 0 p.length d = false := by
          simpa using hj
        simpa [can_overlap_u] using this
    · have hdeq : d = rs.length - p.length := by omega
      have hj := List.all_eq_true.mp hl3 d (by
        simp only [List.mem_range]
        omega)
      simp only [decide_eq_true_eq] at hj
      rcases hj with hj | hj
      · omega
      · apply key d (by omega) ?_ rfl
        have : can_overlap_u p rs 0 (rs.length - d) d = false := by
          simpa using hj
        have hlen : rs.length - d = p.length := by omega
        rw [hlen] at this
        simpa [can_overlap_u] using this

theorem reduce_non_overlap_sound (ls rs : List E) (eqs : List (E × E))
    (σ : Assign) (h : evalL ls σ = evalL rs σ) :
    ∃ t, reduce_non_overlap ls rs eqs = some t ∧
      evalL t.1 σ = evalL t.2.1 σ := by
  unfold reduce_non_overlap
  by_cases h0 : (rs.any fun u => ¬ is_unit u) = true
  · rw [if_pos h0]
    exact ⟨_, rfl, h⟩
  · rw [if_neg h0]
    by_cases h1 : ((unit_runs ls []).any fun p => non_overlap_u p rs) = true
    · exfalso
      obtain ⟨p, hpmem, hpno⟩ := List.any_eq_true.mp h1
      obtain ⟨hpu, hpne, pre, post, hdec⟩ :=
        unit_runs_spec ls [] p hpmem (by simp)
      rw [List.nil_append] at hdec
      have hru : ∀ x ∈ rs, is_unit x = true := by
        intro x hx
        by_contra hc
        apply h0
        refine List.any_eq_true.mpr ⟨x, hx, ?_⟩
        simpa using hc
      subst hdec
      have hw : (evalL pre σ ++
            p.map fun x => (evalS x σ).getD 0 0) ++ evalL post σ =
          rs.map fun x => (evalS x σ).getD 0 0 := by
        rw [← unit_list_eval σ hpu, ← unit_list_eval σ hru, ← evalL_append,
          ← evalL_append]
        exact h
      have hlen : (evalL pre σ).length + p.length ≤ rs.length := by
        have h2 := congrArg List.length hw
        rw [List.length_append, List.length_append, List.length_map,
          List.length_map] at h2
        omega
      have halign : ∀ k, k < p.length →
          (evalS (p.getD k .btrue) σ).getD 0 0 =
            (evalS (rs.getD ((evalL pre σ).length + k) .btrue) σ).getD 0 0 := by
        intro k hk
        have hga : ((evalL pre σ ++
              p.map fun x => (evalS x σ).getD 0 0) ++ evalL post σ).getD
                ((evalL pre σ).length + k) 0 =
            (p.map fun x => (evalS x σ).getD 0 0).getD k 0 := by
          rw [List.getD_append _ _ _ _ (by
            rw [List.length_append, List.length_map]
            omega)]
          rw [List.getD_append_right _ _ _ _ (by omega)]
          congr 1
          omega
        have h3 := congrArg (fun l => l.getD ((evalL pre σ).length + k) 0) hw
        simp only at h3
        rw [hga] at h3
        rw [getD_map_lt σ p k hk] at h3
        rw [getD_map_lt σ rs ((evalL pre σ).length + k) (by omega)] at h3
        exact h3
      have hsw : ¬ rs.length < p.length := by
        have hp1 : 1 ≤ p.length := by
          cases p
          · exact absurd rfl hpne
          · simp
        omega
      have hcore : non_overlap_u_core p rs = true := by
        unfold non_overlap_u at hpno
        rwa [if_neg hsw] at hpno
      exact non_overlap_core_contra p rs σ (evalL pre σ).length hpu hru hpne
        hlen halign hcore
    · rw [if_neg h1]
      exact ⟨_, rfl, h⟩

theorem min_length_exact (e : E) (σ : Assign) :
    (min_length e).1 = true → (evalS e σ).length = (min_length e).2 := by
  induction e with
  | unit a ih =>
      intro _
      simp [min_length, evalS, eval, Val.asS]
  | strLit s =>
      intro _
      simp [min_length, evalS, eval, Val.asS]
  | concat a b iha ihb =>
      intro h
      simp only [min_length, Bool.and_eq_true] at h
      have h1 := iha h.1
      have h2 := ihb h.2
      simp only [min_length, evalS, eval, Val.asS] at h1 h2 ⊢
      simp [List.length_append, h1, h2]
  | ite c t f ihc iht ihf =>
      intro h
      simp only [min_length, Bool.and_eq_true, decide_eq_true_eq] at h
      obtain ⟨⟨h1, h2⟩, h3⟩ := h
      have e1 := iht h1
      have e2 := ihf h2
      simp only [min_length, evalS, eval]
      cases hb : (eval σ c).asB <;> simp only [if_pos, if_neg,
        Bool.false_eq_true, if_false, if_true]
      · exact e2.trans (by rw [h3]; exact (Nat.min_self _).symm)
      · exact e1.trans (by rw [h3]; exact (Nat.min_self _).symm)
  | _ =>
      intro h
      simp [min_length] at h

theorem min_length_list_cons (e : E) (es : List E) :
    min_length_list (e :: es) =
      ((min_length e).1 && (min_length_list es).1,
        (min_length e).2 + (min_length_list es).2) := rfl

theorem min_length_list_le (es : List E) (σ : Assign) :
    (min_length_list es).2 ≤ (evalL es σ).length := by
  induction es with
  | nil => simp [min_length_list, evalL_nil]
  | cons e es ih =>
      rw [min_length_list_cons, evalL_cons, List.length_append]
      exact Nat.add_le_add (min_length_le e σ) ih

theorem min_length_list_exact (es : List E) (σ : Assign) :
    (min_length_list es).1 = true →
      (evalL es σ).length = (min_length_list es).2 := by
  induction es with
  | nil =>
      intro _
      simp [min_length_list, evalL_nil]
  | cons e es ih =>
      intro h
      rw [min_length_list_cons] at h ⊢
      simp only [Bool.and_eq_true] at h
      rw [evalL_cons, List.length_append, min_length_exact e σ h.1, ih h.2]

theorem reduce_by_length_sound (ls rs : List E) (eqs : List (E × E))
    (σ : Assign) (h : evalL ls σ = evalL rs σ) :
    ∃ t, reduce_by_length ls rs eqs = some t ∧
      evalL t.1 σ = evalL t.2.1 σ := by
  unfold reduce_by_length
  by_cases h0 : ls.isEmpty ∧ rs.isEmpty
  · rw [if_pos h0]
    exact ⟨_, rfl, h⟩
  · rw [if_neg h0]
    have hlen : (evalL ls σ).length = (evalL rs σ).length := by rw [h]
    have hc1 : ¬((min_length_list ls).1 = true ∧
        (min_length_list ls).2 < (min_length_list rs).2) := by
      rintro ⟨f, lt⟩
      have e1 := min_length_list_exact ls σ f
      have e2 := min_length_list_le rs σ
      omega
    have hc2 : ¬((min_length_list rs).1 = true ∧
        (min_length_list rs).2 < (min_length_list ls).2) := by
      rintro ⟨f, lt⟩
      have e1 := min_length_list_exact rs σ f
      have e2 := min_length_list_le ls σ
      omega
    simp only [hc1, hc2, if_false]
    by_cases h3 : ((min_length_list ls).1 = true ∧
        (min_length_list ls).2 = (min_length_list rs).2 ∧
        0 < (min_length_list ls).2 ∧ has_var rs = true)
    · exact ⟨([], [], eqs ++ set_empty_eqs rs ++
        [(concat_non_empty ls, concat_non_empty rs)]), by rw [if_pos h3], rfl⟩
    · rw [if_neg h3]
      by_cases h4 : ((min_length_list rs).1 = true ∧
          (min_length_list ls).2 = (min_length_list rs).2 ∧
          0 < (min_length_list ls).2 ∧ has_var ls = true)
      · exact ⟨([], [], eqs ++ set_empty_eqs ls ++
          [(concat_non_empty ls, concat_non_empty rs)]), by rw [if_pos h4], rfl⟩
      · rw [if_neg h4]
        exact ⟨_, rfl, h⟩

theorem length_analyzer_sound (e : E) (σ : Assign) :
    (min_length e).2 ≤ (evalS e σ).length ∧
    ((evalS e σ).length : WithTop Nat) ≤
      (if (max_length e).1 then ((max_length e).2 : WithTop Nat) else ⊤) := by
  refine ⟨min_length_le e σ, ?_⟩
  by_cases h : (max_length e).1 = true
  · simp only [h, if_true]
    exact_mod_cast max_length_le e σ h
  · simp [h]

/-- C6: stoi/itos round trip: `stoi(itos(x))` rewrites to
`ite(x ≥ 0, x, −1)` for every integer term `x`; on constants,
`stoi("07")` rewrites to 7, `stoi(itos(-3))` rewrites (after the inner
`itos(-3) → ""`) to −1, and `itos(stoi("a"))` rewrites (after the inner
`stoi("a") → −1`) to `""`. -/
theorem stoi_itos_round_trip :
    (∀ x : E, mk_str_stoi (.itos x) =
        some (.ite (.ge x (.intVal 0)) x (.intVal (-1)))) ∧
    mk_str_stoi (.strLit [48, 55]) = some (.intVal 7) ∧
    (mk_str_itos (.intVal (-3)) = some (.strLit []) ∧
      mk_str_stoi (.strLit []) = some (.intVal (-1))) ∧
    (mk_str_stoi (.strLit [97]) = some (.intVal (-1)) ∧
      mk_str_itos (.intVal (-1)) = some (.strLit [])) :=
  ⟨fun _ => rfl, by decide, ⟨by decide, by decide⟩, by decide, by decide⟩

/-- C7: from_code out-of-range: `from_code(r)` rewrites to the empty
string literal when `r < 0` or `r > MAX_CHAR` (no error is raised), and
to the one-character string with code `r` when `0 ≤ r ≤ MAX_CHAR`. -/
theorem from_code_range (r : Int) :
    (r < 0 ∨ (max_char : Int) < r →
      mk_str_from_code (.intVal r) = some (.strLit [])) ∧
    (0 ≤ r ∧ r ≤ (max_char : Int) →
      mk_str_from_code (.intVal r) = some (.strLit [r.toNat])) := by
  constructor
  · intro h
    simp [mk_str_from_code, h]
  · intro ⟨h1, h2⟩
    have : ¬(r < 0 ∨ (max_char : Int) < r) := by omega
    simp [mk_str_from_code, this]

theorem from_code_range_witness :
    mk_str_from_code (.intVal 196608) = some (.strLit []) ∧
    mk_str_from_code (.intVal 97) = some (.strLit [97]) :=
  ⟨(from_code_range 196608).1 (Or.inr (by norm_num [max_char])),
   (from_code_range 97).2 ⟨by norm_num, by norm_num [max_char]⟩⟩

/-- C9: to_code on string literals is total with −1 as out-of-domain
result: the code point of the single character when the length is 1,
−1 for every other length (including the empty string), and `FAILED`
(no rewrite) on non-literal arguments. -/
theorem to_code_total :
    (∀ c : Nat, mk_str_to_code (.strLit [c]) = some (.intVal c)) ∧
    (∀ s : List Nat, s.length ≠ 1 →
      mk_str_to_code (.strLit s) = some (.intVal (-1))) ∧
    (∀ a : E, is_string_lit a = false → mk_str_to_code a = none) := by
  refine ⟨fun c => by simp [mk_str_to_code], fun s h => by simp [mk_str_to_code, h],
    fun a h => ?_⟩
  cases a <;> simp_all [mk_str_to_code, is_string_lit]

theorem to_code_total_witness :
    mk_str_to_code (.strLit []) = some (.intVal (-1)) ∧
    mk_str_to_code (.seqVar 0) = none :=
  ⟨to_code_total.2.1 [] (by decide), to_code_total.2.2 (.seqVar 0) rfl⟩

/-- C10 counterexample: at `b = ""` the claim fails: `mk_str_lt("", "")`
rewrites to `false` (the `a < "" → false` rule fires first), not to the
negation of the equality `"" = ""`. -/
theorem str_lt_empty_counterexample :
    mk_str_lt (.strLit []) (.strLit []) = some .bfalse ∧
    mk_str_lt (.strLit []) (.strLit []) ≠
      some (.not (.eq (.strLit []) (.strLit []))) := by decide

/-- C10 (amended): `mk_str_lt(a, "")` rewrites to `false` for every `a`,
and `mk_str_lt("", b)` rewrites to the negation of the equality
`"" = b` for every `b` that is not the empty-string literal (at
`b = ""` the first rule fires and yields `false`). -/
theorem str_lt_empty (a b : E) :
    mk_str_lt a (.strLit []) = some .bfalse ∧
    (b ≠ .strLit [] →
      mk_str_lt (.strLit []) b = some (.not (.eq (.strLit []) b))) := by
  constructor
  · simp [mk_str_lt]
  · intro h
    simp [mk_str_lt, h]

theorem str_lt_empty_witness :
    mk_str_lt (.seqVar 0) (.strLit []) = some .bfalse ∧
    mk_str_lt (.strLit []) (.strLit [97]) =
      some (.not (.eq (.strLit []) (.strLit [97]))) :=
  ⟨(str_lt_empty (.seqVar 0) (.strLit [97])).1,
   (str_lt_empty (.seqVar 0) (.strLit [97])).2 (by decide)⟩

/-- C8: Operation-cache reset invariant: when the table has at least
`MAX_CACHE` entries, `insert` fully clears both the table and the trail
before inserting (no partial eviction); after every insert the key
`(op,a,b,c)` maps to `r`, and the table size never exceeds
`MAX_CACHE`. -/
theorem op_cache_insert_spec (cap op : Nat) (a b c : Option E) (r : E)
    (st : OpCache) (hcap : 1 ≤ cap) :
    (cap ≤ st.table.length →
      op_cache_insert cap op a b c r st =
        ⟨[((op, a, b, c), r)], a.toList ++ b.toList ++ c.toList ++ [r]⟩) ∧
    op_cache_find op a b c (op_cache_insert cap op a b c r st) = some r ∧
    (op_cache_insert cap op a b c r st).table.length ≤ cap := by
  refine ⟨?_, ?_, ?_⟩
  · intro h
    simp [op_cache_insert, op_cache_cleanup, h]
  · simp [op_cache_insert, op_cache_find]
  · by_cases h : cap ≤ st.table.length
    · simp [op_cache_insert, op_cache_cleanup, h, hcap]
    · simp only [op_cache_insert, op_cache_cleanup, h, if_neg, if_false]
      have h2 := List.length_filter_le
        (fun kv => decide (kv.1 ≠ (op, a, b, c))) st.table
      simp only [List.length_cons]
      omega

theorem op_cache_insert_spec_witness :
    op_cache_find 5 none none none
      (op_cache_insert 1 5 none none none .btrue ⟨[], []⟩) = some .btrue ∧
    (op_cache_insert 1 5 none none none .btrue ⟨[], []⟩).table.length ≤ 1 :=
  ⟨(op_cache_insert_spec 1 5 none none none .btrue ⟨[], []⟩ (by decide)).2.1,
   (op_cache_insert_spec 1 5 none none none .btrue ⟨[], []⟩ (by decide)).2.2⟩

/-- C4 counterexample: with `X = to_re("a")` (whose minimal length is 1),
the normalized union of `Σ+` and `X` is `Σ+`, not `X` as claimed: the
source's branch returns `r1` (the `Σ+` operand). -/
theorem union_normalize_dot_plus_counterexample :
    mk_regex_union_normalize (fun _ => 0) dot_plus (.toRe (.strLit [97])) =
      dot_plus ∧
    mk_regex_union_normalize (fun _ => 0) dot_plus (.toRe (.strLit [97])) ≠
      .toRe (.strLit [97]) ∧
    1 ≤ re_info_min_length (.toRe (.strLit [97])) := by decide

/-- C4 (amended): for every regex `X` whose reported minimal length is at
least 1, the normalized union of `Σ+` and `X` is `Σ+` (the union absorbs
`X`), and dually the normalized intersection of `Σ+` and `X` is `X`. -/
theorem normalize_dot_plus (rid : Rgx → Nat) (X : Rgx)
    (h : 0 < re_info_min_length X) :
    mk_regex_union_normalize rid dot_plus X = dot_plus ∧
    mk_regex_inter_normalize rid dot_plus X = X := by
  have hfull : X ≠ .full := by
    intro he
    subst he
    simp [re_info_min_length, re_min_length] at h
  have heps : is_epsilon X = false := by
    simp only [is_epsilon]
    by_cases he : X = epsilon
    · subst he
      simp [re_info_min_length, re_min_length, epsilon, min_length] at h
    · simp [he]
  have hdp : is_dot_plus dot_plus = true := by decide
  constructor
  · by_cases h1 : dot_plus = X ∨ X = Rgx.emp ∨ dot_plus = Rgx.full
    · simp [mk_regex_union_normalize, h1]
    · have h2 : ¬(dot_plus = Rgx.emp ∨ X = Rgx.full) := by
        rintro (hc | hc)
        · exact absurd hc (by decide)
        · exact hfull hc
      simp [mk_regex_union_normalize, h1, h2, hdp, h]
  · simp only [mk_regex_inter_normalize, heps, Bool.false_eq_true, if_false, if_neg]
    by_cases h1 : dot_plus = X ∨ dot_plus = Rgx.emp ∨ X = Rgx.full
    · rcases h1 with hc | hc | hc
      · simp [← hc]
      · exact absurd hc (by decide)
      · exact absurd hc hfull
    · by_cases h2 : X = Rgx.emp ∨ dot_plus = Rgx.full
      · rcases h2 with hc | hc
        · subst hc
          simp [mk_regex_inter_normalize, h1]
        · exact absurd hc (by decide)
      · have heps1 : is_epsilon dot_plus = false := by decide
        simp [h1, h2, heps1, hdp, h]

theorem normalize_dot_plus_witness :
    mk_regex_union_normalize (fun _ => 0) dot_plus (.toRe (.strLit [98])) =
      dot_plus ∧
    mk_regex_inter_normalize (fun _ => 0) dot_plus (.toRe (.strLit [98])) =
      .toRe (.strLit [98]) :=
  normalize_dot_plus (fun _ => 0) (.toRe (.strLit [98])) (by decide)


theorem reduce_eq_stages_sound (ls0 rs0 : List E) (eqs : List (E × E))
    (σ : Assign) (h : evalL ls0 σ = evalL rs0 σ) :
    ∃ t, reduce_eq ls0 rs0 eqs = some t ∧ evalL t.1 σ = evalL t.2.1 σ := by
  simp only [reduce_eq]
  have h1 : evalL (remove_empty_and_concats ls0) σ =
      evalL (remove_empty_and_concats rs0) σ := by
    rw [evalL_remove_empty_and_concats, evalL_remove_empty_and_concats]
    exact h
  obtain ⟨t1, e1, s1⟩ := reduce_back_sound _ _ eqs σ h1
  rw [e1, Option.some_bind]
  obtain ⟨t2, e2, s2⟩ := reduce_front_sound t1.1 t1.2.1 t1.2.2 σ s1
  rw [e2, Option.some_bind]
  obtain ⟨t3, e3, s3⟩ := reduce_itos_sound t2.1 t2.2.1 t2.2.2 σ s2
  rw [e3, Option.some_bind]
  obtain ⟨t4, e4, s4⟩ := reduce_itos_sound t3.2.1 t3.1 t3.2.2 σ s3.symm
  rw [e4, Option.some_bind]
  obtain ⟨t5, e5, s5⟩ := reduce_value_clash_sound t4.2.1 t4.1 t4.2.2 σ s4.symm
  rw [e5, Option.some_bind]
  obtain ⟨t6, e6, s6⟩ := reduce_by_length_sound t5.1 t5.2.1 t5.2.2 σ s5
  rw [e6, Option.some_bind]
  obtain ⟨t7, e7, s7⟩ := reduce_subsequence_sound t6.1 t6.2.1 t6.2.2 σ s6
  rw [e7, Option.some_bind]
  obtain ⟨t8, e8, s8⟩ := reduce_non_overlap_sound t7.1 t7.2.1 t7.2.2 σ s7
  rw [e8, Option.some_bind]
  obtain ⟨t9, e9, s9⟩ := reduce_non_overlap_sound t8.2.1 t8.1 t8.2.2 σ s8.symm
  rw [e9, Option.map_some']
  exact ⟨_, rfl, s9.symm⟩

theorem append_singleton_ne {a b : Nat} (hab : a ≠ b) :
    ∀ w : List Nat, w ++ [a] ≠ b :: w := by
  intro w
  induction w with
  | nil => simpa using hab
  | cons c w ih =>
      intro hcontra
      rw [List.cons_append] at hcontra
      injection hcontra with h1 h2
      rw [h1] at h2
      exact ih h2


/-- C2, counterexample: membership of a sequence variable in
`Σ*·to_re("ab")·Σ*` is not rewritten to `contains` — `mk_str_in_regexp`
fails (BR_FAILED), because the contains-pattern branch is disabled in
the source. -/
theorem str_in_regexp_contains_counterexample :
    mk_str_in_regexp (fun _ r => r) (fun _ => true) (.seqVar 0)
      (.conc .full (.conc (.toRe (.strLit [97, 98])) .full)) = none := rfl

/-- C2 (amended): for a sequence term `a` that is not a string literal,
membership in `to_re(u)·Σ*` rewrites to `prefix(u, a)` and membership in
`Σ*·to_re(u)` rewrites to `suffix(u, a)`; but the claimed contains
pattern `Σ*·to_re(u)·Σ*` is NOT rewritten to `contains(a, u)`: the
`rewrite_contains_pattern` call at seq_rewriter.cpp:4681 is disabled
(`if (false && ...)`), and on such input (here with a variable `a`) no
rule fires at all. -/
theorem str_in_regexp_patterns
    (deriv : Nat → Rgx → Rgx) (ground : Rgx → Bool)
    (a : E) (u : List Nat) (n : Nat) (ha : ∀ s, a ≠ E.strLit s) :
    mk_str_in_regexp deriv ground a (.conc (.toRe (.strLit u)) .full) =
      some (.pfx (.strLit u) a) ∧
    mk_str_in_regexp deriv ground a (.conc .full (.toRe (.strLit u))) =
      some (.sfx (.strLit u) a) ∧
    mk_str_in_regexp deriv ground (.seqVar n)
      (.conc .full (.conc (.toRe (.strLit u)) .full)) = none := by
  refine ⟨?_, ?_, ?_⟩
  · cases a <;> first | exact absurd rfl (ha _) | rfl
  · cases a <;> first | exact absurd rfl (ha _) | rfl
  · rfl

/-- Witness for C2 at `a = x` (a sequence variable) and `u = "ab"`. -/
theorem str_in_regexp_patterns_witness :
    (∀ s, E.seqVar 0 ≠ E.strLit s) ∧
    mk_str_in_regexp (fun _ r => r) (fun _ => true) (.seqVar 0)
        (.conc (.toRe (.strLit [97, 98])) .full) =
      some (.pfx (.strLit [97, 98]) (.seqVar 0)) :=
  ⟨fun _ h => E.noConfusion h,
    (str_in_regexp_patterns (fun _ r => r) (fun _ => true) (.seqVar 0)
      [97, 98] 0 (fun _ h => E.noConfusion h)).1⟩


/-- C3, counterexample to the "only if" direction: the equation
`x ++ "a" = "b" ++ x` is unsatisfiable (its sides differ under every
assignment), yet `reduce_eq` does not return `false` on it: every stage
passes it through unrefuted. -/
theorem reduce_eq_iff_counterexample :
    reduce_eq [E.seqVar 0, E.strLit [97]] [E.strLit [98], E.seqVar 0] []
      ≠ none ∧
    provably_distinct [E.seqVar 0, E.strLit [97]]
      [E.strLit [98], E.seqVar 0] := by
  constructor
  · simp [reduce_eq, remove_empty_and_concats, get_concat, reduce_back,
      reduce_back_rev, reduce_front, reduce_itos, as_string_list,
      reduce_value_clash, vc_loop, is_unit_value, reduce_by_length,
      min_length_list, min_length, has_var, reduce_subsequence, subseq_marks,
      find_match, reduce_non_overlap, is_unit]
  · intro σ
    have hne := append_singleton_ne (a := 97) (b := 98) (by decide) (σ.seqV 0)
    simpa [evalL, evalS, eval, Val.asS] using hne

/-- C3 (amended): the equation reducer is sound but not complete: when
`reduce_eq` on flattened concatenations `ls`, `rs` returns `false`
(`none` here), the disequality `ls ≠ rs` is provable, i.e. the two
concatenations denote different words under every assignment.  (The
converse fails: see the counterexample.) -/
theorem reduce_eq_none_sound (ls rs : List E) (eqs : List (E × E))
    (hnone : reduce_eq ls rs eqs = none) : provably_distinct ls rs := by
  intro σ heq
  obtain ⟨t, ht, _⟩ := reduce_eq_stages_sound ls rs eqs σ heq
  rw [hnone] at ht
  exact Option.noConfusion ht

/-- Witness for C3: `reduce_eq` refutes `"a" = "b"`, and the theorem
yields its provable disequality. -/
theorem reduce_eq_none_sound_witness :
    reduce_eq [E.strLit [97]] [E.strLit [98]] [] = none ∧
      provably_distinct [E.strLit [97]] [E.strLit [98]] := by
  have hnone : reduce_eq [E.strLit [97]] [E.strLit [98]] [] = none := by
    simp [reduce_eq, remove_empty_and_concats, reduce_back, reduce_back_rev]
  exact ⟨hnone, reduce_eq_none_sound _ _ _ hnone⟩

end SeqRw
